import Mathlib

/-!
# Label helpers of `labels.go`

A shallow embedding of the label functions of `src/labels.go`
(`NextLabel`, `Split`, `LenLabels`, `SplitLabels`, `CompareLabels`) and the
properties established about them.

A Go `string` is a sequence of bytes; it is embedded as a list of byte values.
Go `int` offsets are non-negative on every path considered and are embedded as
natural numbers; `NextLabel64` is the scanner with Go's 64-bit `int` arithmetic,
where the wrap-around of `i + 1` at the largest offset is visible.  A function whose Go body contains an unbounded `for` loop or a
slice expression returns an `Option`: `none` stands for "no value returned"
(iteration bound exhausted, or a run-time panic of an index or slice
expression).
-/

namespace Dns

/-! ## The embedding of the code and the vocabulary of the properties -/

/-- A Go string: its bytes, in order. -/
abbrev Str := List Nat

/-- The byte `'.'`, the label separator. -/
def dot : Nat := 46

/-- The byte `'\\'`, the escape character. -/
def backslash : Nat := 92

/-- The bytes of a string literal (UTF-8 encoding). -/
def str (x : String) : Str := (x.toUTF8.data.toList).map UInt8.toNat

/-- Modelled from the spec: `Fqdn` (the spec's `ToFQDN`) is called by `labels.go`
but defined elsewhere in the package.  It returns the name unchanged when it
already ends with the terminator `'.'`, and otherwise appends one; in
particular the empty text becomes `"."`.  The test looks at the last byte only,
as C2 and C17 word it (`t = s` when `s` already ends with `'.'`, else
`s + "."`). -/
def Fqdn (s : Str) : Str :=
  if s.getLast? = some dot then s else s ++ [dot]

/-- The `for i = offset; i < len(s)-1; i++` loop of `NextLabel`.  The first
argument bounds the number of iterations still to run; `i` and `quote` are the
loop variables.  Reaching the loop exit returns `(i + 1, true)`.  Started with
the bound `len(s) - 1 - offset`, the bound is `0` exactly when the loop
condition `i < len(s)-1` fails. -/
def NextLabel.loop (s : Str) : Nat → Nat → Bool → Nat × Bool
  | 0, i, _ => (i + 1, true)
  | n + 1, i, quote =>
    if h : i + 1 < s.length then
      let c := s.get ⟨i, by omega⟩
      if c = backslash then
        NextLabel.loop s n (i + 1) (!quote)
      else if c = dot then
        if quote then
          NextLabel.loop s n (i + 1) (!quote)
        else
          (i + 1, false)
      else
        NextLabel.loop s n (i + 1) false
    else
      (i + 1, true)

/-- The function `NextLabel(s, offset)`: the index of the start of the next
label and whether the end of the string was reached.  The loop runs at most
`len(s) - 1 - offset` times.  Offsets are natural numbers here, without the
wrap-around of Go's `int`; `NextLabel64` has it, and the two agree for
`0 ≤ offset < maxInt64`. -/
def NextLabel (s : Str) (offset : Nat) : Nat × Bool :=
  NextLabel.loop s (s.length - 1 - offset) offset false

/-- The unbounded `for` loop of `Split`: `off` and `idx` are the loop variables,
the first argument bounds the number of calls to `NextLabel`. -/
def Split.loop (s : Str) : Nat → Nat → List Nat → Option (List Nat)
  | 0, _, _ => none
  | fuel + 1, off, idx =>
    match NextLabel s off with
    | (_, true) => some idx
    | (off1, false) => Split.loop s fuel off1 (idx ++ [off1])

/-- The function `Split(s)`: the label start indexes of `s`; the root name gives `nil`
(the empty list). -/
def Split (s : Str) : Option (List Nat) :=
  if s = [dot] then some []
  else
    let s := Fqdn s
    Split.loop s (s.length + 1) 0 [0]

/-- The unbounded `for` loop of `LenLabels`: `off` and `labels` are the loop
variables, the first argument bounds the number of calls to `NextLabel`. -/
def LenLabels.loop (s : Str) : Nat → Nat → Nat → Option Nat
  | 0, _, _ => none
  | fuel + 1, off, labels =>
    match NextLabel s off with
    | (_, true) => some (labels + 1)
    | (off1, false) => LenLabels.loop s fuel off1 (labels + 1)

/-- The function `LenLabels(s)`: the number of labels of `s`. -/
def LenLabels (s : Str) : Option Nat :=
  if s = [dot] then some 0
  else
    let s := Fqdn s
    LenLabels.loop s (s.length + 1) 0 0

/-- The slice expression `s[b:e]`; it panics unless `0 ≤ b ≤ e ≤ len(s)`. -/
def slice (s : Str) (b e : Nat) : Option Str :=
  if b ≤ e ∧ e ≤ s.length then some ((s.take e).drop b) else none

/-- The slice expression `s[b:]`; it panics unless `0 ≤ b ≤ len(s)`. -/
def sliceFrom (s : Str) (b : Nat) : Option Str :=
  if b ≤ s.length then some (s.drop b) else none

/-- The index expression `l[i]` for a Go `int` index; it panics unless
`0 ≤ i < len(l)`. -/
def index (l : List Nat) (i : Int) : Option Nat :=
  if 0 ≤ i then l[i.toNat]? else none

/-- The `for i := 1; i < len(idx); i++` loop of `SplitLabels`: the first
argument bounds the number of iterations still to run; `i`, `begin` and
`labels` are the loop variables. -/
def SplitLabels.loop (s : Str) (idx : List Nat) :
    Nat → Nat → Nat → List Str → Option (List Str)
  | 0, _, _, labels => some labels
  | n + 1, i, begin, labels =>
    if h : i < idx.length then
      let end1 := idx.get ⟨i, h⟩
      match slice s begin end1 with
      | none => none
      | some l => SplitLabels.loop s idx n (i + 1) end1 (labels ++ [l])
    else
      some labels

/-- The function `SplitLabels(s)`: the labels of `s`; the root name gives `nil`. -/
def SplitLabels (s : Str) : Option (List Str) :=
  match Split s with
  | none => none
  | some idx =>
    match idx.length with
    | 0 => some []
    | 1 => some [s]
    | _ => SplitLabels.loop s idx (idx.length - 1) 1 0 []

/-- The unbounded `for` loop of `CompareLabels`: `i1`, `j1`, `i2`, `j2` and `n`
are the loop variables, the first argument bounds the number of iterations. -/
def CompareLabels.loop (s1 s2 : Str) (l1 l2 : List Nat) :
    Nat → Int → Int → Int → Int → Nat → Option Nat
  | 0, _, _, _, _, _ => none
  | fuel + 1, i1, j1, i2, j2, n =>
    if i1 < 0 ∨ i2 < 0 then some n
    else do
      let a ← slice s1 (← index l1 i1) (← index l1 j1)
      let b ← slice s2 (← index l2 i2) (← index l2 j2)
      if a = b then
        CompareLabels.loop s1 s2 l1 l2 fuel (i1 - 1) (j1 - 1) (i2 - 1) (j2 - 1) (n + 1)
      else
        some n

/-- The function `CompareLabels(s1, s2)`: how many labels the two names have in common,
starting from the right. -/
def CompareLabels (s1 s2 : Str) : Option Nat := do
  let s1 := Fqdn s1
  let s2 := Fqdn s2
  let l1 ← Split s1
  let l2 ← Split s2
  if l1 = [] ∨ l2 = [] then
    some 0
  else
    let j1 : Int := (l1.length : Int) - 1
    let i1 : Int := (l1.length : Int) - 2
    let j2 : Int := (l2.length : Int) - 1
    let i2 : Int := (l2.length : Int) - 2
    let a ← sliceFrom s1 (← index l1 j1)
    let b ← sliceFrom s2 (← index l2 j2)
    if a = b then
      CompareLabels.loop s1 s2 l1 l2 (l1.length + 1) i1 j1 i2 j2 1
    else
      some 0

/-- The length of the maximal run of consecutive `'\\'` bytes inside
`s[offset..i)` that ends immediately before index `i`. -/
def escRun (s : Str) (offset i : Nat) : Nat :=
  (((s.take i).drop offset).reverse.takeWhile (fun c => decide (c = backslash))).length

/-- Index `i` of `s` is an unescaped dot seen from `offset`: `s[i] = '.'` and the
run of backslashes inside `s[offset..i)` ending immediately before `i` has even
length. -/
def UnescapedDotFrom (s : Str) (offset i : Nat) : Prop :=
  s[i]? = some dot ∧ escRun s offset i % 2 = 0

instance (s : Str) (offset i : Nat) : Decidable (UnescapedDotFrom s offset i) := by
  unfold UnescapedDotFrom; exact inferInstance

/-- The scanner seen on the remaining suffix `s[i:]`: the distance from `i` to
the first dot met with `quote` false, the last byte of the text excluded. -/
def scan : List Nat → Bool → Option Nat
  | [], _ => none
  | [_], _ => none
  | c :: c2 :: rest, q =>
    if c = backslash then (scan (c2 :: rest) (!q)).map (· + 1)
    else if c = dot then
      if q then (scan (c2 :: rest) false).map (· + 1) else some 0
    else (scan (c2 :: rest) false).map (· + 1)

/-- The result of the scanner, from the suffix view. -/
def scanResult (len i : Nat) : Option Nat → Nat × Bool
  | some k => (i + k + 1, false)
  | none => (max i (len - 1) + 1, true)

/-- Index `i` of `t` is an unescaped dot: `t[i] = '.'` and the maximal run of
backslashes ending immediately before `i` has even (possibly zero) length. -/
def UnescapedDot (t : Str) (i : Nat) : Prop := UnescapedDotFrom t 0 i

instance (t : Str) (i : Nat) : Decidable (UnescapedDot t i) := by
  unfold UnescapedDot; exact inferInstance

/-- A text that contains neither `'.'` nor `'\\'`. -/
def Plain (l : Str) : Prop := ∀ c ∈ l, c ≠ dot ∧ c ≠ backslash

instance (l : Str) : Decidable (Plain l) := by
  unfold Plain; exact inferInstance

/-- The name `l1 + "." + l2 + "." + ... + lk + "."`. -/
def joinLabels (ls : List Str) : Str := (ls.map (· ++ [dot])).flatten

/-- The running sums of (label length + 1), starting from `acc`: one offset per
label. -/
def runningOffsets : List Str → Nat → List Nat
  | [], _ => []
  | l :: ls, acc => acc :: runningOffsets ls (acc + l.length + 1)

/-- The raw label number `j` of the text `t` cut at the offsets `idx`:
`t[idx[j] : idx[j+1]]` for `j < len(idx) - 1`, and `t[idx[j] :]` for the last
offset. -/
def labelAt (t : Str) (idx : List Nat) (j : Nat) : Str :=
  if j + 1 < idx.length then (t.take (idx.getD (j + 1) 0)).drop (idx.getD j 0)
  else t.drop (idx.getD j 0)

/-- The list `labels(s)` of C4: with `t = Fqdn(s)` and `idx = Split(t)`, the raw
slices of `t` between consecutive offsets, the last one running to the end of
`t`; the empty list when `idx` is empty. -/
def labels (s : Str) : List Str :=
  match Split (Fqdn s) with
  | some idx => (List.range idx.length).map (labelAt (Fqdn s) idx)
  | none => []

/-- The number of equal pairs met when two label lists are compared from the
right, stopping at the first unequal pair. -/
def commonSuffixLen (a b : List Str) : Nat :=
  ((a.reverse.zip b.reverse).takeWhile (fun x => decide (x.1 = x.2))).length

/-- Offsets that are strictly increasing and lie inside the text. -/
def ValidOffsets (t : Str) (l : List Nat) : Prop :=
  l.Pairwise (· < ·) ∧ ∀ p ∈ l, p ≤ t.length

/-- The name `x + (k backslashes) + "." + y + "."`. -/
def escName (x : Str) (k : Nat) (y : Str) : Str :=
  x ++ List.replicate k backslash ++ [dot] ++ y ++ [dot]

/-- The loop of `NextLabel` once more, for a Go `int` offset of either sign and
with the index expression `s[i]` checked: the result is `none` when `s[i]` is
evaluated with `i` outside `0 ≤ i < len(s)` (a run-time panic).  The first
argument bounds the number of iterations still to run. -/
def NextLabel.checkedLoop (s : Str) : Nat → Int → Bool → Option (Int × Bool)
  | 0, i, _ => some (i + 1, true)
  | n + 1, i, quote =>
    if i < (s.length : Int) - 1 then
      match index s i with
      | none => none
      | some c =>
        if c = backslash then
          NextLabel.checkedLoop s n (i + 1) (!quote)
        else if c = dot then
          if quote then
            NextLabel.checkedLoop s n (i + 1) (!quote)
          else
            some (i + 1, false)
        else
          NextLabel.checkedLoop s n (i + 1) false
    else
      some (i + 1, true)

/-- The function `NextLabel(s, offset)` with a signed offset and checked index
expressions, used for the absence of panics.  The loop runs at most
`len(s) - 1 - offset` times.  The integers are unbounded here; `NextLabel64`
adds the 64-bit wrap-around of `i + 1`. -/
def NextLabelChecked (s : Str) (offset : Int) : Option (Int × Bool) :=
  NextLabel.checkedLoop s ((s.length : Int) - 1 - offset).toNat offset false

/-- The largest value of Go's `int` (64 bits wide): `2^63 - 1`. -/
def maxInt64 : Int := 9223372036854775807

/-- The value of a Go `int` (64 bits wide, two's complement) after an arithmetic
operation whose exact result is `x`: `x` wrapped into `[-2^63, 2^63)`. -/
def wrapInt64 (x : Int) : Int :=
  (x + 9223372036854775808) % 18446744073709551616 - 9223372036854775808

/-- The loop of `NextLabel` with Go's `int` arithmetic: `i++` and the returned
`i + 1` wrap around at 64 bits, and the index expression `s[i]` is checked
(`none` is a run-time panic).  The first argument bounds the number of
iterations still to run. -/
def NextLabel.loop64 (s : Str) : Nat → Int → Bool → Option (Int × Bool)
  | 0, i, _ => some (wrapInt64 (i + 1), true)
  | n + 1, i, quote =>
    if i < (s.length : Int) - 1 then
      match index s i with
      | none => none
      | some c =>
        if c = backslash then
          NextLabel.loop64 s n (wrapInt64 (i + 1)) (!quote)
        else if c = dot then
          if quote then
            NextLabel.loop64 s n (wrapInt64 (i + 1)) (!quote)
          else
            some (wrapInt64 (i + 1), false)
        else
          NextLabel.loop64 s n (wrapInt64 (i + 1)) false
    else
      some (wrapInt64 (i + 1), true)

/-- The function `NextLabel(s, offset)` with Go's `int` arithmetic, for a text of
at most `maxInt64` bytes and an offset in the range of `int`.  The loop runs at
most `len(s) - 1 - offset` times. -/
def NextLabel64 (s : Str) (offset : Int) : Option (Int × Bool) :=
  NextLabel.loop64 s ((s.length : Int) - 1 - offset).toNat offset false

/-! ## The boundary scanner -/

theorem escRun_of_le (s : Str) (offset i : Nat) (h : i ≤ offset) : escRun s offset i = 0 := by
  have : (s.take i).drop offset = [] := by
    apply List.drop_eq_nil_of_le
    simp only [List.length_take]; omega
  simp [escRun, this]

theorem escRun_succ (s : Str) (offset i : Nat) (ho : offset ≤ i) (hi : i < s.length) :
    escRun s offset (i + 1)
      = if s.get ⟨i, hi⟩ = backslash then escRun s offset i + 1 else 0 := by
  have h1 : s.take (i + 1) = s.take i ++ [s.get ⟨i, hi⟩] := by
    rw [List.take_succ]; simp [List.getElem?_eq_getElem hi]
  have h2 : ((s.take (i + 1)).drop offset) = (s.take i).drop offset ++ [s.get ⟨i, hi⟩] := by
    rw [h1, List.drop_append_of_le_length]
    simp only [List.length_take]; omega
  unfold escRun
  rw [h2, List.reverse_append]
  by_cases hc : s.get ⟨i, hi⟩ = backslash
  · have hc1 : s[i] = backslash := hc
    simp [hc, hc1, List.takeWhile_cons]
  · have hc1 : ¬ s[i] = backslash := hc
    simp [hc, hc1, List.takeWhile_cons]

theorem NextLabel_loop_spec (s : Str) (offset : Nat) :
    ∀ (n i : Nat) (q : Bool), offset ≤ i → s.length - 1 - i ≤ n →
      (q = true ↔ escRun s offset i % 2 = 1) →
      (∀ j, offset ≤ j → j < i → ¬ UnescapedDotFrom s offset j) →
      (∃ m, NextLabel.loop s n i q = (m + 1, false) ∧ i ≤ m ∧ m + 1 < s.length ∧
          UnescapedDotFrom s offset m ∧
          ∀ j, offset ≤ j → j < m → ¬ UnescapedDotFrom s offset j) ∨
      (NextLabel.loop s n i q = (max i (s.length - 1) + 1, true) ∧
          ∀ j, offset ≤ j → j + 1 < s.length → ¬ UnescapedDotFrom s offset j) := by
  intro n
  induction n with
  | zero =>
    intro i q _ hn _ hno
    right
    refine ⟨?_, fun j hj hj1 => hno j hj (by omega)⟩
    simp only [NextLabel.loop]
    rw [Nat.max_eq_left (by omega)]
  | succ n ih =>
    intro i q hoi hn hq hno
    by_cases h : i + 1 < s.length
    · have hi : i < s.length := by omega
      have hstep := escRun_succ s offset i hoi hi
      have hget : s[i]? = some (s.get ⟨i, hi⟩) := by
        simp [List.getElem?_eq_getElem hi]
      have hmax : max (i + 1) (s.length - 1) = max i (s.length - 1) := by
        rw [Nat.max_eq_right (by omega), Nat.max_eq_right (by omega)]
      have hno1 : ¬ UnescapedDotFrom s offset i →
          ∀ j, offset ≤ j → j < i + 1 → ¬ UnescapedDotFrom s offset j := by
        intro hni j hj hji
        by_cases hji1 : j = i
        · subst hji1; exact hni
        · exact hno j hj (by omega)
      by_cases hb : s.get ⟨i, hi⟩ = backslash
      · have hni : ¬ UnescapedDotFrom s offset i := by
          intro hu
          have := hu.1
          rw [hget, hb] at this
          simp [backslash, dot] at this
        have hq1 : ((!q) = true ↔ escRun s offset (i + 1) % 2 = 1) := by
          rw [hstep, if_pos hb]
          cases q <;> simp at hq ⊢ <;> omega
        have := ih (i + 1) (!q) (by omega) (by omega) hq1 (hno1 hni)
        rw [hmax] at this
        simp only [NextLabel.loop, dif_pos h, if_pos hb]
        rcases this with ⟨m, h1, h2, h3⟩ | h1
        · exact Or.inl ⟨m, h1, by omega, h3⟩
        · exact Or.inr h1
      · by_cases hd : s.get ⟨i, hi⟩ = dot
        · cases q with
          | true =>
            have hni : ¬ UnescapedDotFrom s offset i := by
              intro hu
              have h1 := hq.1 rfl
              have h2 := hu.2
              omega
            have hq1 : ((!true) = true ↔ escRun s offset (i + 1) % 2 = 1) := by
              rw [hstep, if_neg hb]; simp
            have := ih (i + 1) (!true) (by omega) (by omega) hq1 (hno1 hni)
            rw [hmax] at this
            simp only [NextLabel.loop, dif_pos h, if_neg hb, if_pos hd]
            rcases this with ⟨m, h1, h2, h3⟩ | h1
            · exact Or.inl ⟨m, h1, by omega, h3⟩
            · exact Or.inr h1
          | false =>
            left
            refine ⟨i, ?_, Nat.le_refl _, h, ⟨?_, ?_⟩, hno⟩
            · simp only [NextLabel.loop, dif_pos h, if_neg hb, if_pos hd]
              rfl
            · rw [hget, hd]
            · have : ¬ (escRun s offset i % 2 = 1) := fun hh => by
                have := hq.2 hh; simp at this
              omega
        · have hni : ¬ UnescapedDotFrom s offset i := by
            intro hu
            have := hu.1
            rw [hget] at this
            exact hd (Option.some.inj this)
          have hq1 : (false = true ↔ escRun s offset (i + 1) % 2 = 1) := by
            rw [hstep, if_neg hb]; simp
          have := ih (i + 1) false (by omega) (by omega) hq1 (hno1 hni)
          rw [hmax] at this
          simp only [NextLabel.loop, dif_pos h, if_neg hb, if_neg hd]
          rcases this with ⟨m, h1, h2, h3⟩ | h1
          · exact Or.inl ⟨m, h1, by omega, h3⟩
          · exact Or.inr h1
    · right
      refine ⟨?_, fun j hj hj1 => hno j hj (by omega)⟩
      simp only [NextLabel.loop, dif_neg h]
      rw [Nat.max_eq_left (by omega)]

/-- What `NextLabel` returns: either the position after the first unescaped dot
at or after `offset` (excluding the last byte), or the end of the text. -/
theorem NextLabel_spec (s : Str) (offset : Nat) :
    (∃ m, NextLabel s offset = (m + 1, false) ∧ offset ≤ m ∧ m + 1 < s.length ∧
        UnescapedDotFrom s offset m ∧
        ∀ j, offset ≤ j → j < m → ¬ UnescapedDotFrom s offset j) ∨
    (NextLabel s offset = (max offset (s.length - 1) + 1, true) ∧
        ∀ j, offset ≤ j → j + 1 < s.length → ¬ UnescapedDotFrom s offset j) := by
  have h0 : escRun s offset offset = 0 := escRun_of_le s offset offset (Nat.le_refl _)
  exact NextLabel_loop_spec s offset (s.length - 1 - offset) offset false (Nat.le_refl _)
    (Nat.le_refl _) (by simp [h0]) (fun j h1 h2 => by omega)

theorem NextLabel_eq_of_first (s : Str) (offset i : Nat) (h1 : offset ≤ i)
    (h2 : i + 1 < s.length) (h3 : UnescapedDotFrom s offset i)
    (h4 : ∀ j, offset ≤ j → j < i → ¬ UnescapedDotFrom s offset j) :
    NextLabel s offset = (i + 1, false) := by
  rcases NextLabel_spec s offset with ⟨m, hm, hm1, hm2, hm3, hm4⟩ | ⟨_, hno⟩
  · have : m = i := by
      rcases Nat.lt_trichotomy m i with hlt | heq | hgt
      · exact absurd hm3 (h4 m hm1 hlt)
      · exact heq
      · exact absurd h3 (hm4 i h1 hgt)
    rw [hm, this]
  · exact absurd h3 (hno i h1 h2)

theorem NextLabel_eq_end (s : Str) (offset : Nat)
    (h : ∀ j, offset ≤ j → j + 1 < s.length → ¬ UnescapedDotFrom s offset j) :
    NextLabel s offset = (max offset (s.length - 1) + 1, true) := by
  rcases NextLabel_spec s offset with ⟨m, _, hm1, hm2, hm3, _⟩ | ⟨he, _⟩
  · exact absurd hm3 (h m hm1 hm2)
  · exact he

/-- C1: `NextLabel(s, offset)` returns `(i + 1, false)` exactly when `i` is the
smallest index with `offset ≤ i < len(s) - 1` that is an unescaped dot seen from
`offset`; it reports `end = true` exactly when no such index exists; and a
result with `end = false` always has the form `(i + 1, false)`. -/
theorem NextLabel_finds_next_unescaped_separator (s : Str) (offset : Nat) :
    (∀ i, NextLabel s offset = (i + 1, false) ↔
        (offset ≤ i ∧ i + 1 < s.length ∧ UnescapedDotFrom s offset i ∧
          ∀ j, offset ≤ j → j + 1 < s.length → UnescapedDotFrom s offset j → i ≤ j)) ∧
    ((NextLabel s offset).2 = true ↔
        ¬ ∃ i, offset ≤ i ∧ i + 1 < s.length ∧ UnescapedDotFrom s offset i) ∧
    ((NextLabel s offset).2 = false → ∃ i, NextLabel s offset = (i + 1, false)) := by
  rcases NextLabel_spec s offset with ⟨m, hm, hm1, hm2, hm3, hm4⟩ | ⟨he, hno⟩
  · refine ⟨fun i => ⟨fun h => ?_, fun h => ?_⟩, ?_, fun _ => ⟨m, hm⟩⟩
    · rw [hm] at h
      have hmi : m = i := by
        have := congrArg Prod.fst h
        simpa using this
      subst hmi
      refine ⟨hm1, hm2, hm3, fun j hj _ hu => ?_⟩
      by_contra hlt
      exact hm4 j hj (by omega) hu
    · obtain ⟨hi1, hi2, hi3, hi4⟩ := h
      exact NextLabel_eq_of_first s offset i hi1 hi2 hi3
        (fun j hj hji hu => by have := hi4 j hj (by omega) hu; omega)
    · rw [hm]
      simp only [Bool.false_eq_true, false_iff, not_not]
      exact ⟨m, hm1, hm2, hm3⟩
  · refine ⟨fun i => ⟨fun h => ?_, fun h => ?_⟩, ?_, fun h => ?_⟩
    · rw [he] at h
      have := congrArg Prod.snd h
      simp at this
    · exact absurd h.2.2.1 (hno i h.1 h.2.1)
    · rw [he]
      simp only [true_iff]
      rintro ⟨i, hi1, hi2, hi3⟩
      exact hno i hi1 hi2 hi3
    · rw [he] at h
      simp at h

theorem NextLabel_loop_eq_scan (s : Str) :
    ∀ (n i : Nat) (q : Bool), s.length - 1 - i ≤ n →
      NextLabel.loop s n i q = scanResult s.length i (scan (s.drop i) q) := by
  intro n
  induction n with
  | zero =>
    intro i q hn
    have hlen : (s.drop i).length ≤ 1 := by simp only [List.length_drop]; omega
    have hsc : scan (s.drop i) q = none := by
      match hd : s.drop i, hlen with
      | [], _ => rfl
      | [_], _ => rfl
      | _ :: _ :: _, h => simp at h
    rw [hsc]
    simp only [NextLabel.loop, scanResult]
    rw [Nat.max_eq_left (by omega)]
  | succ n ih =>
    intro i q hn
    by_cases h : i + 1 < s.length
    · have hi : i < s.length := by omega
      have hd1 : s.drop i = s.get ⟨i, hi⟩ :: s.drop (i + 1) := by
        rw [List.drop_eq_getElem_cons hi]; rfl
      have hd2 : s.drop (i + 1) = s.get ⟨i + 1, h⟩ :: s.drop (i + 2) := by
        rw [List.drop_eq_getElem_cons h]; rfl
      have hmax : max (i + 1) (s.length - 1) = max i (s.length - 1) := by
        rw [Nat.max_eq_right (by omega), Nat.max_eq_right (by omega)]
      have hres : ∀ o, scanResult s.length (i + 1) o
          = scanResult s.length i (o.map (· + 1)) := by
        intro o
        cases o with
        | none => simp only [scanResult, Option.map, hmax]
        | some k => simp only [scanResult, Option.map]; rw [show i + 1 + k + 1 = i + (k + 1) + 1 by omega]
      have ih1 := fun q1 => ih (i + 1) q1 (by omega)
      rw [hd1]
      rw [hd2] at ih1 ⊢
      simp only [NextLabel.loop, dif_pos h, scan]
      by_cases hb : s.get ⟨i, hi⟩ = backslash
      · simp only [if_pos hb]
        rw [ih1, hres]
      · simp only [if_neg hb]
        by_cases hdt : s.get ⟨i, hi⟩ = dot
        · simp only [if_pos hdt]
          cases q with
          | true => simp only [if_true, Bool.not_true]; rw [ih1, hres]
          | false => simp [scanResult]
        · simp only [if_neg hdt]
          rw [ih1, hres]
    · have hlen : (s.drop i).length ≤ 1 := by simp only [List.length_drop]; omega
      have hsc : scan (s.drop i) q = none := by
        match hd : s.drop i, hlen with
        | [], _ => rfl
        | [_], _ => rfl
        | _ :: _ :: _, h => simp at h
      rw [hsc]
      simp only [NextLabel.loop, dif_neg h, scanResult]
      rw [Nat.max_eq_left (by omega)]

theorem NextLabel_eq_scan (s : Str) (offset : Nat) :
    NextLabel s offset = scanResult s.length offset (scan (s.drop offset) false) :=
  NextLabel_loop_eq_scan s _ offset false (Nat.le_refl _)

/-! ## The offset splitter -/

theorem takeWhile_append_stop (p : Nat → Bool) (a b : List Nat)
    (h : ∀ x, b.head? = some x → p x = false) :
    (a ++ b).takeWhile p = a.takeWhile p := by
  induction a with
  | nil =>
    cases b with
    | nil => rfl
    | cons x b => simp [List.takeWhile_cons, h x rfl]
  | cons y a ih => simp [List.takeWhile_cons, ih]

theorem escRun_from_boundary (t : Str) (off i : Nat)
    (hb : off = 0 ∨ t[off - 1]? = some dot) (hoi : off ≤ i) :
    escRun t off i = escRun t 0 i := by
  rcases Nat.eq_zero_or_pos off with h0 | hpos
  · subst h0; rfl
  · have hd : t[off - 1]? = some dot := by
      rcases hb with h | h
      · omega
      · exact h
    have hsplit : t.take i = t.take off ++ (t.take i).drop off := by
      have := List.take_append_drop off (t.take i)
      rw [List.take_take, Nat.min_eq_left hoi] at this
      exact this.symm
    unfold escRun
    rw [List.drop_zero]
    conv_rhs => rw [hsplit, List.reverse_append]
    rw [takeWhile_append_stop]
    intro x hx
    rw [List.head?_reverse, List.getLast?_take, if_neg (by omega), hd] at hx
    simp at hx
    subst hx
    simp [dot, backslash]

theorem unescapedDotFrom_iff (t : Str) (off i : Nat)
    (hb : off = 0 ∨ t[off - 1]? = some dot) (hoi : off ≤ i) :
    UnescapedDotFrom t off i ↔ UnescapedDot t i := by
  unfold UnescapedDot UnescapedDotFrom
  rw [escRun_from_boundary t off i hb hoi]

theorem Split_loop_spec (t : Str) :
    ∀ (fuel off : Nat) (idx : List Nat), (off = 0 ∨ t[off - 1]? = some dot) →
      off ≤ t.length → t.length + 1 ≤ fuel + off →
      ∃ rest, Split.loop t fuel off idx = some (idx ++ rest) ∧
        rest.Pairwise (· < ·) ∧
        ∀ p, p ∈ rest ↔ (off < p ∧ p < t.length ∧ UnescapedDot t (p - 1)) := by
  intro fuel
  induction fuel with
  | zero => intro off idx _ h1 h2; omega
  | succ fuel ih =>
    intro off idx hb hlen hfuel
    rcases NextLabel_spec t off with ⟨m, hm, hm1, hm2, hm3, hm4⟩ | ⟨he, hno⟩
    · have hbm : (m + 1 = 0 ∨ t[m + 1 - 1]? = some dot) := Or.inr (by simpa using hm3.1)
      obtain ⟨rest, hr, hp, hmem⟩ := ih (m + 1) (idx ++ [m + 1]) hbm (by omega) (by omega)
      refine ⟨(m + 1) :: rest, ?_, ?_, ?_⟩
      · simp only [Split.loop, hm]
        rw [hr]; simp
      · rw [List.pairwise_cons]
        exact ⟨fun a ha => ((hmem a).1 ha).1, hp⟩
      · intro p
        rw [List.mem_cons, hmem]
        constructor
        · rintro (h | ⟨h1, h2, h3⟩)
          · subst h
            exact ⟨by omega, hm2, by
              simpa using (unescapedDotFrom_iff t off m hb hm1).1 hm3⟩
          · exact ⟨by omega, h2, h3⟩
        · rintro ⟨h1, h2, h3⟩
          have h3f := (unescapedDotFrom_iff t off (p - 1) hb (by omega)).2 h3
          rcases Nat.lt_trichotomy (p - 1) m with hlt | heq | hgt
          · exact absurd h3f (hm4 (p - 1) (by omega) hlt)
          · left; omega
          · right; exact ⟨by omega, h2, h3⟩
    · refine ⟨[], ?_, List.Pairwise.nil, ?_⟩
      · simp only [Split.loop, he]
        simp
      · intro p
        simp only [List.not_mem_nil, false_iff]
        rintro ⟨h1, h2, h3⟩
        have h3f := (unescapedDotFrom_iff t off (p - 1) hb (by omega)).2 h3
        exact hno (p - 1) (by omega) (by omega) h3f

theorem Fqdn_length_pos (s : Str) : 0 < (Fqdn s).length := by
  unfold Fqdn
  split
  · rename_i h
    cases s with
    | nil => simp at h
    | cons a s => simp
  · simp

/-- What `Split` returns on a name other than the root: `0` followed by the
increasing list of the positions just after an unescaped dot of `Fqdn s`, the
final byte of `Fqdn s` excluded. -/
theorem Split_spec (s : Str) (hs : s ≠ [dot]) :
    ∃ rest, Split s = some (0 :: rest) ∧ rest.Pairwise (· < ·) ∧
      ∀ p, p ∈ rest ↔
        (1 ≤ p ∧ p ≤ (Fqdn s).length - 1 ∧ UnescapedDot (Fqdn s) (p - 1)) := by
  obtain ⟨rest, hr, hp, hmem⟩ :=
    Split_loop_spec (Fqdn s) ((Fqdn s).length + 1) 0 [0] (Or.inl rfl) (Nat.zero_le _)
      (Nat.le_refl _)
  refine ⟨rest, ?_, hp, fun p => ?_⟩
  · simp only [Split, if_neg hs]
    rw [hr]; rfl
  · rw [hmem]
    have := Fqdn_length_pos s
    constructor
    · rintro ⟨h1, h2, h3⟩; exact ⟨h1, by omega, h3⟩
    · rintro ⟨h1, h2, h3⟩; exact ⟨h1, by omega, h3⟩

/-! ## Names built from plain labels -/

theorem scan_cons (c : Nat) (r : List Nat) (q : Bool) (hr : r ≠ []) :
    scan (c :: r) q =
      if c = backslash then (scan r (!q)).map (· + 1)
      else if c = dot then
        if q then (scan r false).map (· + 1) else some 0
      else (scan r false).map (· + 1) := by
  cases r with
  | nil => exact absurd rfl hr
  | cons c2 rest => rfl

theorem scan_plain_append (x : Str) (hx : Plain x) (r : List Nat) :
    scan (x ++ r) false = (scan r false).map (· + x.length) := by
  induction x with
  | nil => simp
  | cons a x ih =>
    have hx1 : Plain x := fun c hc => hx c (List.mem_cons_of_mem _ hc)
    have ha := hx a (List.mem_cons_self _ _)
    by_cases hnil : x ++ r = []
    · have h1 : x = [] := (List.append_eq_nil.1 hnil).1
      have h2 : r = [] := (List.append_eq_nil.1 hnil).2
      subst h1; subst h2
      rfl
    · rw [List.cons_append, scan_cons a (x ++ r) false hnil, if_neg ha.2, if_neg ha.1,
        ih hx1]
      cases scan r false with
      | none => rfl
      | some k => simp only [Option.map, List.length_cons]; congr 1

theorem scan_plain_end (l : Str) (hl : Plain l) (c : Nat) :
    scan (l ++ [c]) false = none := by
  rw [scan_plain_append l hl]; rfl

theorem scan_plain_dot (l : Str) (hl : Plain l) (r : List Nat) (hr : r ≠ []) :
    scan (l ++ dot :: r) false = some l.length := by
  rw [scan_plain_append l hl, scan_cons dot r false hr]
  simp [dot, backslash]

theorem NextLabel_append (pre r : Str) :
    NextLabel (pre ++ r) pre.length
      = scanResult (pre ++ r).length pre.length (scan r false) := by
  rw [NextLabel_eq_scan, List.drop_left]

theorem joinLabels_cons (l : Str) (ls : List Str) :
    joinLabels (l :: ls) = l ++ dot :: joinLabels ls := by
  simp [joinLabels]

theorem joinLabels_cons_ne_nil (l : Str) (ls : List Str) : joinLabels (l :: ls) ≠ [] := by
  rw [joinLabels_cons]; simp

theorem Split_loop_labels :
    ∀ (ls : List Str) (l pre : Str) (fuel : Nat) (idx : List Nat),
      (∀ x ∈ l :: ls, Plain x) →
      (pre ++ joinLabels (l :: ls)).length + 1 ≤ fuel + pre.length →
      Split.loop (pre ++ joinLabels (l :: ls)) fuel pre.length idx
        = some (idx ++ runningOffsets ls (pre.length + l.length + 1)) := by
  intro ls
  induction ls with
  | nil =>
    intro l pre fuel idx hpl hfuel
    have hl := hpl l (List.mem_cons_self _ _)
    cases fuel with
    | zero => simp [joinLabels_cons] at hfuel; omega
    | succ fuel =>
      have hj : joinLabels [l] = l ++ [dot] := by simp [joinLabels]
      rw [hj] at hfuel ⊢
      simp only [Split.loop, NextLabel_append, scan_plain_end l hl, scanResult,
        runningOffsets, List.append_nil]
  | cons l2 ls ih =>
    intro l pre fuel idx hpl hfuel
    have hl := hpl l (List.mem_cons_self _ _)
    have hpl2 : ∀ x ∈ l2 :: ls, Plain x := fun x hx => hpl x (List.mem_cons_of_mem _ hx)
    cases fuel with
    | zero => simp [joinLabels_cons] at hfuel; omega
    | succ fuel =>
      have hnl : NextLabel (pre ++ joinLabels (l :: l2 :: ls)) pre.length
          = (pre.length + l.length + 1, false) := by
        rw [NextLabel_append, joinLabels_cons l,
          scan_plain_dot l hl _ (joinLabels_cons_ne_nil l2 ls)]
        rfl
      have hre : pre ++ joinLabels (l :: l2 :: ls)
          = (pre ++ l ++ [dot]) ++ joinLabels (l2 :: ls) := by
        rw [joinLabels_cons l]; simp
      have hlen : (pre ++ l ++ [dot]).length = pre.length + l.length + 1 := by
        simp only [List.length_append, List.length_singleton]
      have := ih l2 (pre ++ l ++ [dot]) fuel (idx ++ [pre.length + l.length + 1]) hpl2
        (by rw [← hre, hlen]; omega)
      rw [← hre, hlen] at this
      simp only [Split.loop, hnl]
      rw [this]
      simp [runningOffsets]

theorem Split_joinLabels (l : Str) (ls : List Str) (hpl : ∀ x ∈ l :: ls, Plain x)
    (hroot : joinLabels (l :: ls) ≠ [dot]) :
    Split (joinLabels (l :: ls)) = some (runningOffsets (l :: ls) 0) := by
  have hfq : Fqdn (joinLabels (l :: ls)) = joinLabels (l :: ls) := by
    have : (joinLabels (l :: ls)).getLast? = some dot := by
      clear hpl hroot
      induction ls generalizing l with
      | nil => simp [joinLabels]
      | cons l2 ls ih =>
        rw [joinLabels_cons l, ← List.singleton_append, ← List.append_assoc,
          List.getLast?_append, ih l2]
        rfl
    simp [Fqdn, this]
  have := Split_loop_labels ls l [] ((joinLabels (l :: ls)).length + 1) [0] hpl (by simp)
  simp only [Split, if_neg hroot, hfq]
  simp only [List.nil_append, List.length_nil, Nat.zero_add] at this
  rw [this]
  simp [runningOffsets]

/-- C2: for every name `s` other than `"."`, with `t = Fqdn(s)`, `Split(s)` is `0`
followed by, in increasing order, exactly the positions `p` with
`1 ≤ p ≤ len(t) - 1` such that `t[p-1]` is an unescaped dot; when `s` is built
from labels containing neither `'.'` nor `'\\'`, each followed by a dot, the
offsets are the running sums of (label length + 1); and
`Split("www.miek.nl.") = [0, 4, 9]`. -/
theorem Split_returns_label_starts (s : Str) (hs : s ≠ [dot]) :
    (∃ rest, Split s = some (0 :: rest) ∧ rest.Pairwise (· < ·) ∧
      ∀ p, p ∈ rest ↔
        (1 ≤ p ∧ p ≤ (Fqdn s).length - 1 ∧ UnescapedDot (Fqdn s) (p - 1))) ∧
    (∀ (l : Str) (ls : List Str), (∀ x ∈ l :: ls, Plain x) → s = joinLabels (l :: ls) →
      Split s = some (runningOffsets (l :: ls) 0)) ∧
    Split (str "www.miek.nl.") = some [0, 4, 9] := by
  refine ⟨Split_spec s hs, fun l ls hpl hsl => ?_, by decide⟩
  subst hsl
  exact Split_joinLabels l ls hpl hs

/-- Witness of C2 at the name `"www.miek.nl."`, built from the labels `www`,
`miek` and `nl`. -/
theorem Split_returns_label_starts_witness :
    str "www.miek.nl." ≠ [dot] ∧
      Split (str "www.miek.nl.")
        = some (runningOffsets [str "www", str "miek", str "nl"] 0) ∧
      runningOffsets [str "www", str "miek", str "nl"] 0 = [0, 4, 9] :=
  ⟨by decide,
    (Split_returns_label_starts (str "www.miek.nl.") (by decide)).2.1
      (str "www") [str "miek", str "nl"] (by decide) (by decide),
    by decide⟩

/-! ## Labels as substrings, counting, and the root name -/

/-- C3: on `"www.miek.nl."` the code of `SplitLabels` returns the two slices
`"www."` and `"miek."` (separators kept, last label dropped), not the documented
`["www", "miek", "nl"]`; on the single-label name `"nl."` it returns `["nl."]`. -/
theorem SplitLabels_keeps_separators :
    SplitLabels (str "www.miek.nl.") = some [str "www.", str "miek."] ∧
    SplitLabels (str "www.miek.nl.") ≠ some [str "www", str "miek", str "nl"] ∧
    SplitLabels (str "nl.") = some [str "nl."] := by
  decide

theorem Split_total (s : Str) : ∃ idx, Split s = some idx ∧ (idx = [] ↔ s = [dot]) := by
  by_cases hs : s = [dot]
  · exact ⟨[], by simp [Split, hs], by simp [hs]⟩
  · obtain ⟨rest, hr, _, _⟩ := Split_spec s hs
    exact ⟨0 :: rest, hr, by simp [hs]⟩

theorem LenLabels_loop_eq (s : Str) :
    ∀ (fuel off labels : Nat) (idx : List Nat), labels + 1 = idx.length →
      LenLabels.loop s fuel off labels = (Split.loop s fuel off idx).map List.length := by
  intro fuel
  induction fuel with
  | zero => intro off labels idx _; rfl
  | succ fuel ih =>
    intro off labels idx hl
    rcases hnl : NextLabel s off with ⟨o, e⟩
    cases e with
    | true => simp only [LenLabels.loop, Split.loop, hnl, Option.map, hl]
    | false =>
      simp only [LenLabels.loop, Split.loop, hnl]
      exact ih o (labels + 1) (idx ++ [o]) (by simp [hl])

theorem LenLabels_eq (s : Str) : LenLabels s = (Split s).map List.length := by
  by_cases hs : s = [dot]
  · simp [LenLabels, Split, hs]
  · simp only [LenLabels, Split, if_neg hs]
    exact LenLabels_loop_eq (Fqdn s) _ 0 0 [0] rfl

/-- C5: for every string `n`, `Split(n)` returns an offset list and `LenLabels(n)`
returns its length. -/
theorem LenLabels_eq_length_Split (n : Str) :
    ∃ idx, Split n = some idx ∧ LenLabels n = some idx.length := by
  obtain ⟨idx, h, _⟩ := Split_total n
  exact ⟨idx, h, by rw [LenLabels_eq, h]; rfl⟩

/-- C9: the root name has no labels: `Split(".")` and `SplitLabels(".")` are the
empty (nil) sequence and `LenLabels(".") = 0`. -/
theorem root_has_no_labels :
    Split (str ".") = some [] ∧ SplitLabels (str ".") = some [] ∧
      LenLabels (str ".") = some 0 := by
  decide

theorem Fqdn_dot : Fqdn [dot] = [dot] := by decide

/-- C10: the root name shares no labels with anything: `CompareLabels(".", s)` and
`CompareLabels(s, ".")` are `0` for every string `s`, the root included. -/
theorem CompareLabels_root (s : Str) :
    CompareLabels (str ".") s = some 0 ∧ CompareLabels s (str ".") = some 0 ∧
      CompareLabels (str ".") (str ".") = some 0 := by
  have hd : str "." = [dot] := by decide
  have h1 : Split [dot] = some [] := by decide
  obtain ⟨idx, h2, _⟩ := Split_total (Fqdn s)
  rw [hd]
  refine ⟨?_, ?_, by decide⟩
  · simp [CompareLabels, Fqdn_dot, h1, h2]
  · simp [CompareLabels, Fqdn_dot, h1, h2]

/-! ## The suffix comparator -/

theorem takeWhile_zip_common (p : List Str) :
    ∀ q : List Str, ∃ c, c <+: p ∧ c <+: q ∧
      c.length = ((p.zip q).takeWhile (fun x => decide (x.1 = x.2))).length ∧
      ∀ d, d <+: p → d <+: q → d.length ≤ c.length := by
  induction p with
  | nil =>
    intro q
    refine ⟨[], List.nil_prefix, List.nil_prefix, by simp, fun d hd _ => ?_⟩
    rw [List.prefix_nil.1 hd]
  | cons u p ih =>
    intro q
    cases q with
    | nil =>
      refine ⟨[], List.nil_prefix, List.nil_prefix, by simp, fun d _ hd => ?_⟩
      rw [List.prefix_nil.1 hd]
    | cons v q =>
      by_cases huv : u = v
      · subst huv
        obtain ⟨c, hc1, hc2, hc3, hc4⟩ := ih q
        refine ⟨u :: c, ?_, ?_, ?_, fun d hd1 hd2 => ?_⟩
        · exact List.cons_prefix_cons.2 ⟨rfl, hc1⟩
        · exact List.cons_prefix_cons.2 ⟨rfl, hc2⟩
        · simp [List.takeWhile_cons, hc3]
        · rcases List.prefix_cons_iff.1 hd1 with h | ⟨t, ht, ht1⟩
          · subst h; simp
          · subst ht
            have ht2 := (List.cons_prefix_cons.1 hd2).2
            have := hc4 t ht1 ht2
            simp only [List.length_cons]; omega
      · refine ⟨[], List.nil_prefix, List.nil_prefix, ?_, fun d hd1 hd2 => ?_⟩
        · simp [List.takeWhile_cons, huv]
        · rcases List.prefix_cons_iff.1 hd1 with h | ⟨t, ht, _⟩
          · subst h; simp
          · subst ht
            exact absurd (List.cons_prefix_cons.1 hd2).1 huv

/-- The value of `commonSuffixLen` is the length of the longest common suffix. -/
theorem commonSuffixLen_spec (a b : List Str) :
    ∃ c, c <:+ a ∧ c <:+ b ∧ c.length = commonSuffixLen a b ∧
      ∀ d, d <:+ a → d <:+ b → d.length ≤ commonSuffixLen a b := by
  obtain ⟨c, hc1, hc2, hc3, hc4⟩ := takeWhile_zip_common a.reverse b.reverse
  refine ⟨c.reverse, ?_, ?_, ?_, fun d hd1 hd2 => ?_⟩
  · have := List.reverse_suffix.2 hc1
    rwa [List.reverse_reverse] at this
  · have := List.reverse_suffix.2 hc2
    rwa [List.reverse_reverse] at this
  · rw [List.length_reverse, hc3]; rfl
  · have := hc4 d.reverse (List.reverse_prefix.2 hd1) (List.reverse_prefix.2 hd2)
    rw [List.length_reverse, hc3] at this
    exact this

theorem commonSuffixLen_nil_left (b : List Str) : commonSuffixLen [] b = 0 := by
  simp [commonSuffixLen]

theorem commonSuffixLen_nil_right (a : List Str) : commonSuffixLen a [] = 0 := by
  simp [commonSuffixLen]

theorem commonSuffixLen_concat (x y : List Str) (u v : Str) :
    commonSuffixLen (x ++ [u]) (y ++ [v])
      = if u = v then commonSuffixLen x y + 1 else 0 := by
  by_cases huv : u = v
  · simp [commonSuffixLen, List.takeWhile_cons, huv]
  · simp [commonSuffixLen, List.takeWhile_cons, huv]

theorem commonSuffixLen_comm (a b : List Str) :
    commonSuffixLen a b = commonSuffixLen b a := by
  obtain ⟨c, hc1, hc2, hc3, hc4⟩ := commonSuffixLen_spec a b
  obtain ⟨d, hd1, hd2, hd3, hd4⟩ := commonSuffixLen_spec b a
  have h1 := hd4 c hc2 hc1
  have h2 := hc4 d hd2 hd1
  omega

theorem commonSuffixLen_self (a : List Str) : commonSuffixLen a a = a.length := by
  obtain ⟨c, hc1, _, hc3, hc4⟩ := commonSuffixLen_spec a a
  have h1 := hc4 a List.suffix_rfl List.suffix_rfl
  have h2 := hc1.length_le
  omega

theorem ValidOffsets_getElem_le (t : Str) (l : List Nat) (hv : ValidOffsets t l)
    (j : Nat) (hj : j < l.length) : l[j] ≤ t.length :=
  hv.2 _ (List.getElem_mem hj)

theorem ValidOffsets_getElem_lt (t : Str) (l : List Nat) (hv : ValidOffsets t l)
    (j : Nat) (hj : j + 1 < l.length) : l[j] < l[j + 1] :=
  (List.pairwise_iff_getElem.1 hv.1) j (j + 1) (by omega) hj (by omega)

theorem index_natCast (l : List Nat) (i : Int) (a : Nat) (h : i = (a : Int)) :
    index l i = l[a]? := by
  subst h
  simp [index]

theorem slice_labelAt (t : Str) (l : List Nat) (hv : ValidOffsets t l) (j : Nat)
    (hj : j + 1 < l.length) :
    slice t (l[j]) (l[j + 1]) = some (labelAt t l j) := by
  have h1 := ValidOffsets_getElem_lt t l hv j hj
  have h2 := ValidOffsets_getElem_le t l hv (j + 1) hj
  have hj0 : j < l.length := by omega
  simp only [slice, labelAt, if_pos hj, List.getD_eq_getElem l 0 hj,
    List.getD_eq_getElem l 0 hj0]
  rw [if_pos ⟨by omega, h2⟩]

theorem sliceFrom_labelAt (t : Str) (l : List Nat) (hv : ValidOffsets t l) (j : Nat)
    (hj : j + 1 = l.length) :
    sliceFrom t (l[j]) = some (labelAt t l j) := by
  have hj0 : j < l.length := by omega
  have h2 := ValidOffsets_getElem_le t l hv j hj0
  simp only [sliceFrom, labelAt, if_neg (show ¬ (j + 1 < l.length) by omega),
    List.getD_eq_getElem l 0 hj0]
  rw [if_pos h2]

theorem CompareLabels_loop_spec (s1 s2 : Str) (l1 l2 : List Nat)
    (hv1 : ValidOffsets s1 l1) (hv2 : ValidOffsets s2 l2) :
    ∀ (fuel a b n : Nat) (i1 j1 i2 j2 : Int), a < l1.length → b < l2.length →
      a + 1 ≤ fuel → i1 = (a : Int) - 1 → j1 = (a : Int) → i2 = (b : Int) - 1 →
      j2 = (b : Int) →
      CompareLabels.loop s1 s2 l1 l2 fuel i1 j1 i2 j2 n
        = some (n + commonSuffixLen ((List.range a).map (labelAt s1 l1))
            ((List.range b).map (labelAt s2 l2))) := by
  intro fuel
  induction fuel with
  | zero => intro a b n i1 j1 i2 j2 _ _ h; omega
  | succ fuel ih =>
    intro a b n i1 j1 i2 j2 ha hb hfuel hi1 hj1 hi2 hj2
    cases a with
    | zero =>
      have : i1 < 0 ∨ i2 < 0 := Or.inl (by omega)
      simp only [CompareLabels.loop, if_pos this, List.range_zero, List.map_nil,
        commonSuffixLen_nil_left, Nat.add_zero]
    | succ a =>
      cases b with
      | zero =>
        have : i1 < 0 ∨ i2 < 0 := Or.inr (by omega)
        simp only [CompareLabels.loop, if_pos this, List.range_zero, List.map_nil,
          commonSuffixLen_nil_right, Nat.add_zero]
      | succ b =>
        have hc : ¬ (i1 < 0 ∨ i2 < 0) := by omega
        have ha0 : a < l1.length := by omega
        have hb0 : b < l2.length := by omega
        have e1 : index l1 i1 = some l1[a] := by
          rw [index_natCast l1 i1 a (by omega), List.getElem?_eq_getElem ha0]
        have e2 : index l1 j1 = some l1[a + 1] := by
          rw [index_natCast l1 j1 (a + 1) (by omega), List.getElem?_eq_getElem ha]
        have e3 : index l2 i2 = some l2[b] := by
          rw [index_natCast l2 i2 b (by omega), List.getElem?_eq_getElem hb0]
        have e4 : index l2 j2 = some l2[b + 1] := by
          rw [index_natCast l2 j2 (b + 1) (by omega), List.getElem?_eq_getElem hb]
        have hrec := fun m => ih a b m (i1 - 1) (j1 - 1) (i2 - 1) (j2 - 1) ha0 hb0
          (by omega) (by omega) (by omega) (by omega) (by omega)
        simp only [CompareLabels.loop, if_neg hc, e1, e2, e3, e4,
          slice_labelAt s1 l1 hv1 a ha, slice_labelAt s2 l2 hv2 b hb,
          Option.bind_eq_bind, Option.some_bind, List.range_succ, List.map_append,
          List.map_cons, List.map_nil, commonSuffixLen_concat]
        by_cases heq : labelAt s1 l1 a = labelAt s2 l2 b
        · rw [if_pos heq, if_pos heq, hrec]
          congr 1; omega
        · rw [if_neg heq, if_neg heq]; rfl

theorem Fqdn_getLast (s : Str) : (Fqdn s).getLast? = some dot := by
  unfold Fqdn
  split
  · assumption
  · simp

theorem Fqdn_idem (s : Str) : Fqdn (Fqdn s) = Fqdn s := by
  have h : ∀ t : Str, t.getLast? = some dot → Fqdn t = t := fun t ht => by
    unfold Fqdn; rw [if_pos ht]
  exact h _ (Fqdn_getLast s)

theorem Split_valid (s : Str) (idx : List Nat) (h : Split s = some idx) :
    ValidOffsets (Fqdn s) idx := by
  by_cases hs : s = [dot]
  · subst hs
    have : idx = [] := by
      have h1 : Split [dot] = some [] := by decide
      rw [h1] at h
      exact (Option.some.inj h).symm
    subst this
    exact ⟨List.Pairwise.nil, fun p hp => by simp at hp⟩
  · obtain ⟨rest, hr, hp, hmem⟩ := Split_spec s hs
    rw [hr] at h
    have := Option.some.inj h
    subst this
    refine ⟨?_, ?_⟩
    · rw [List.pairwise_cons]
      exact ⟨fun a ha => by have := ((hmem a).1 ha).1; omega, hp⟩
    · intro p hp1
      rcases List.mem_cons.1 hp1 with h0 | h1
      · omega
      · have := ((hmem p).1 h1).2.1; omega

/-- The value of `CompareLabels`: the comparison from the right of the two raw
label lists. -/
theorem CompareLabels_eq (s1 s2 : Str) :
    CompareLabels s1 s2 = some (commonSuffixLen (labels s1) (labels s2)) := by
  obtain ⟨l1, h1, hr1⟩ := Split_total (Fqdn s1)
  obtain ⟨l2, h2, hr2⟩ := Split_total (Fqdn s2)
  have hv1 : ValidOffsets (Fqdn s1) l1 := by
    have := Split_valid (Fqdn s1) l1 h1
    rwa [Fqdn_idem] at this
  have hv2 : ValidOffsets (Fqdn s2) l2 := by
    have := Split_valid (Fqdn s2) l2 h2
    rwa [Fqdn_idem] at this
  have hl1 : labels s1 = (List.range l1.length).map (labelAt (Fqdn s1) l1) := by
    simp only [labels, h1]
  have hl2 : labels s2 = (List.range l2.length).map (labelAt (Fqdn s2) l2) := by
    simp only [labels, h2]
  rw [hl1, hl2]
  by_cases hnil : l1 = [] ∨ l2 = []
  · have : commonSuffixLen ((List.range l1.length).map (labelAt (Fqdn s1) l1))
        ((List.range l2.length).map (labelAt (Fqdn s2) l2)) = 0 := by
      rcases hnil with h | h
      · subst h; exact commonSuffixLen_nil_left _
      · subst h; exact commonSuffixLen_nil_right _
    rw [this]
    simp only [CompareLabels, h1, h2, Option.bind_eq_bind, Option.some_bind, if_pos hnil]
  · have hn1 : l1 ≠ [] := fun h => hnil (Or.inl h)
    have hn2 : l2 ≠ [] := fun h => hnil (Or.inr h)
    obtain ⟨a, ha⟩ : ∃ a, l1.length = a + 1 :=
      ⟨l1.length - 1, by have := List.length_pos.2 hn1; omega⟩
    obtain ⟨b, hb⟩ : ∃ b, l2.length = b + 1 :=
      ⟨l2.length - 1, by have := List.length_pos.2 hn2; omega⟩
    have ha0 : a < l1.length := by omega
    have hb0 : b < l2.length := by omega
    have e1 : index l1 ((l1.length : Int) - 1) = some l1[a] := by
      rw [index_natCast l1 _ a (by omega), List.getElem?_eq_getElem ha0]
    have e2 : index l2 ((l2.length : Int) - 1) = some l2[b] := by
      rw [index_natCast l2 _ b (by omega), List.getElem?_eq_getElem hb0]
    have hloop := CompareLabels_loop_spec (Fqdn s1) (Fqdn s2) l1 l2 hv1 hv2
      (l1.length + 1) a b 1 ((l1.length : Int) - 2) ((l1.length : Int) - 1)
      ((l2.length : Int) - 2) ((l2.length : Int) - 1) ha0 hb0 (by omega) (by omega)
      (by omega) (by omega) (by omega)
    simp only [CompareLabels, h1, h2, Option.bind_eq_bind, Option.some_bind, if_neg hnil,
      e1, e2, sliceFrom_labelAt (Fqdn s1) l1 hv1 a ha.symm,
      sliceFrom_labelAt (Fqdn s2) l2 hv2 b hb.symm, hloop]
    rw [ha, hb]
    simp only [List.range_succ, List.map_append, List.map_cons, List.map_nil,
      commonSuffixLen_concat]
    by_cases heq : labelAt (Fqdn s1) l1 a = labelAt (Fqdn s2) l2 b
    · rw [if_pos heq, if_pos heq]
      congr 1; omega
    · rw [if_neg heq, if_neg heq]

/-- C4: for all strings `s1`, `s2`, `CompareLabels(s1, s2)` returns the length of
the longest common suffix of the raw label lists `labels(s1)` and `labels(s2)`
(byte equality, no case folding, no unescaping), that is the number of equal
pairs met from the right before the first unequal pair; in particular
`CompareLabels("www.miek.nl.", "miek.nl.") = 2` and
`CompareLabels("www.miek.nl.", "www.bla.nl.") = 1`. -/
theorem CompareLabels_counts_common_suffix (s1 s2 : Str) :
    (∃ n c, CompareLabels s1 s2 = some n ∧ n = commonSuffixLen (labels s1) (labels s2) ∧
      c <:+ labels s1 ∧ c <:+ labels s2 ∧ c.length = n ∧
      ∀ d, d <:+ labels s1 → d <:+ labels s2 → d.length ≤ n) ∧
    CompareLabels (str "www.miek.nl.") (str "miek.nl.") = some 2 ∧
    CompareLabels (str "www.miek.nl.") (str "www.bla.nl.") = some 1 := by
  obtain ⟨c, hc1, hc2, hc3, hc4⟩ := commonSuffixLen_spec (labels s1) (labels s2)
  exact ⟨⟨_, c, CompareLabels_eq s1 s2, rfl, hc1, hc2, hc3, hc4⟩, by decide, by decide⟩

/-- C7: `CompareLabels` is symmetric: both calls return the same count. -/
theorem CompareLabels_symmetric (a b : Str) :
    CompareLabels a b = CompareLabels b a ∧ ∃ n, CompareLabels a b = some n := by
  rw [CompareLabels_eq a b, CompareLabels_eq b a, commonSuffixLen_comm]
  exact ⟨rfl, _, rfl⟩

/-! ## A name compared with itself -/

theorem Fqdn_ne_root (n : Str) (h1 : n ≠ [dot]) (h2 : n ≠ []) : Fqdn n ≠ [dot] := by
  unfold Fqdn
  split
  · exact h1
  · intro h
    cases n with
    | nil => exact h2 rfl
    | cons a n => simp at h

theorem Split_Fqdn (n : Str) (h1 : n ≠ [dot]) (h2 : n ≠ []) : Split (Fqdn n) = Split n := by
  simp only [Split, if_neg h1, if_neg (Fqdn_ne_root n h1 h2), Fqdn_idem]

/-- C6, as the code has it: for every string `n` other than the root name `"."`
and the empty string, `CompareLabels(n, n)` and `LenLabels(n)` return the same
count. -/
theorem CompareLabels_self (n : Str) (h1 : n ≠ str ".") (h2 : n ≠ str "") :
    CompareLabels n n = LenLabels n ∧ ∃ k, LenLabels n = some k := by
  have hd : str "." = [dot] := by decide
  have he : str "" = [] := by decide
  rw [hd] at h1
  rw [he] at h2
  obtain ⟨idx, hidx, _⟩ := Split_total n
  have hl : labels n = (List.range idx.length).map (labelAt (Fqdn n) idx) := by
    simp only [labels, Split_Fqdn n h1 h2, hidx]
  have hlen : LenLabels n = some idx.length := by rw [LenLabels_eq, hidx]; rfl
  refine ⟨?_, _, hlen⟩
  rw [CompareLabels_eq, commonSuffixLen_self, hlen, hl]
  simp

/-- Witness of C6 at the name `"www.miek.nl."`. -/
theorem CompareLabels_self_witness :
    str "www.miek.nl." ≠ str "." ∧ str "www.miek.nl." ≠ str "" ∧
      CompareLabels (str "www.miek.nl.") (str "www.miek.nl.")
        = LenLabels (str "www.miek.nl.") :=
  ⟨by decide, by decide,
    (CompareLabels_self (str "www.miek.nl.") (by decide) (by decide)).1⟩

/-- C6 fails at the empty string: it is not the root name, `CompareLabels("", "")`
is `0` and `LenLabels("")` is `1`. -/
theorem empty_name_self_comparison :
    str "" ≠ str "." ∧ CompareLabels (str "") (str "") = some 0 ∧
      LenLabels (str "") = some 1 ∧
      CompareLabels (str "") (str "") ≠ LenLabels (str "") := by
  decide

/-! ## The escape parity rule -/

theorem scan_backslashes (r : List Nat) (hr : r ≠ []) :
    ∀ (k : Nat) (q : Bool),
      scan (List.replicate k backslash ++ dot :: r) q
        = if (k + q.toNat) % 2 = 1 then (scan r false).map (· + (k + 1)) else some k := by
  intro k
  induction k with
  | zero =>
    intro q
    rw [List.replicate_zero, List.nil_append, scan_cons dot r q hr]
    cases q <;> simp [dot, backslash]
  | succ k ih =>
    intro q
    rw [List.replicate_succ, List.cons_append, scan_cons backslash _ q (by simp), if_pos rfl,
      ih (!q)]
    have hpar : ((k + (!q).toNat) % 2 = 1) ↔ ((k + 1 + q.toNat) % 2 = 1) := by
      cases q
      · simp
      · simp; omega
    by_cases hk : (k + (!q).toNat) % 2 = 1
    · rw [if_pos hk, if_pos (hpar.1 hk)]
      cases scan r false with
      | none => rfl
      | some m => rfl
    · rw [if_neg hk, if_neg (fun h => hk (hpar.2 h))]
      rfl

theorem escName_length (x : Str) (k : Nat) (y : Str) :
    (escName x k y).length = x.length + k + 1 + y.length + 1 := by
  simp only [escName, List.length_append, List.length_replicate, List.length_singleton]

theorem escName_ne_root (x : Str) (k : Nat) (y : Str) : escName x k y ≠ [dot] := by
  intro h
  have := congrArg List.length h
  rw [escName_length] at this
  simp at this

theorem Fqdn_escName (x : Str) (k : Nat) (y : Str) : Fqdn (escName x k y) = escName x k y := by
  have : (escName x k y).getLast? = some dot := by
    unfold escName
    rw [List.getLast?_append]
    rfl
  unfold Fqdn
  rw [if_pos this]

theorem NextLabel_escName_zero (x : Str) (k : Nat) (y : Str) (hx : Plain x) (hy : Plain y) :
    NextLabel (escName x k y) 0
      = if k % 2 = 1 then ((escName x k y).length, true) else (x.length + k + 1, false) := by
  have hre : escName x k y = x ++ (List.replicate k backslash ++ dot :: (y ++ [dot])) := by
    simp [escName]
  have hlen := escName_length x k y
  rw [NextLabel_eq_scan, List.drop_zero]
  conv_lhs => rw [hre]
  rw [scan_plain_append x hx, scan_backslashes (y ++ [dot]) (by simp) k false,
    scan_plain_end y hy]
  by_cases hk : k % 2 = 1
  · have hk1 : (k + false.toNat) % 2 = 1 := by simpa using hk
    rw [if_pos hk, if_pos hk1]
    simp only [Option.map, scanResult]
    rw [← hre, Nat.max_eq_right (Nat.zero_le _)]
    congr 1; omega
  · have hk1 : ¬ (k + false.toNat) % 2 = 1 := by simpa using hk
    rw [if_neg hk, if_neg hk1]
    simp only [Option.map, scanResult]
    congr 1; omega

theorem NextLabel_escName_second (x : Str) (k : Nat) (y : Str) (hy : Plain y) :
    NextLabel (escName x k y) (x.length + k + 1) = ((escName x k y).length, true) := by
  have hre : escName x k y = (x ++ List.replicate k backslash ++ [dot]) ++ (y ++ [dot]) := by
    simp [escName]
  have hpl : (x ++ List.replicate k backslash ++ [dot]).length = x.length + k + 1 := by
    simp only [List.length_append, List.length_replicate, List.length_singleton]
  have hlen := escName_length x k y
  have := NextLabel_append (x ++ List.replicate k backslash ++ [dot]) (y ++ [dot])
  rw [← hre, hpl, scan_plain_end y hy] at this
  rw [this]
  simp only [scanResult]
  rw [Nat.max_eq_right (by omega)]
  congr 1; omega

theorem Split_escName (x : Str) (k : Nat) (y : Str) (hx : Plain x) (hy : Plain y) :
    Split (escName x k y)
      = if k % 2 = 1 then some [0] else some [0, x.length + k + 1] := by
  obtain ⟨m, hm⟩ : ∃ m, (escName x k y).length = m + 1 :=
    ⟨_, escName_length x k y⟩
  simp only [Split, if_neg (escName_ne_root x k y), Fqdn_escName, hm]
  by_cases hk : k % 2 = 1
  · simp only [Split.loop, NextLabel_escName_zero x k y hx hy, if_pos hk]
  · simp only [Split.loop, NextLabel_escName_zero x k y hx hy, if_neg hk,
      NextLabel_escName_second x k y hy]
    rfl

/-- C8: for all `k` and all texts `x`, `y` containing neither `'.'` nor `'\\'`, the
name `x + (k backslashes) + "." + y + "."` is split at the dot that follows the
backslash run exactly when `k` is even: `Split` gives `[0, len(x)+k+1]` and
`LenLabels` gives `2` for even `k`; `Split` gives `[0]` and `LenLabels` gives `1`
for odd `k`.  Also `a\.b.c.` has the offsets `[0, 5]` and two labels, and
`a\\.b.` has the offsets `[0, 4]` and two labels. -/
theorem escape_parity_rule (k : Nat) (x y : Str) (hx : Plain x) (hy : Plain y) :
    (k % 2 = 0 → Split (escName x k y) = some [0, x.length + k + 1] ∧
      LenLabels (escName x k y) = some 2) ∧
    (k % 2 = 1 → Split (escName x k y) = some [0] ∧
      LenLabels (escName x k y) = some 1) ∧
    (Split (escName x k y) = some [0, x.length + k + 1] ↔ k % 2 = 0) ∧
    Split (str "a\\.b.c.") = some [0, 5] ∧ LenLabels (str "a\\.b.c.") = some 2 ∧
    Split (str "a\\\\.b.") = some [0, 4] ∧ LenLabels (str "a\\\\.b.") = some 2 := by
  have hs := Split_escName x k y hx hy
  refine ⟨fun hk => ?_, fun hk => ?_, ?_, by decide, by decide, by decide, by decide⟩
  · rw [if_neg (by omega)] at hs
    exact ⟨hs, by rw [LenLabels_eq, hs]; rfl⟩
  · rw [if_pos hk] at hs
    exact ⟨hs, by rw [LenLabels_eq, hs]; rfl⟩
  · constructor
    · intro h
      by_contra hk
      rw [if_pos (by omega), h] at hs
      simp at hs
    · intro hk
      rw [if_neg (by omega)] at hs
      exact hs

/-- Witness of C8 at `x = "a"`, `y = "b"`: one backslash gives a single label, two
backslashes give two labels. -/
theorem escape_parity_rule_witness :
    Plain (str "a") ∧ Plain (str "b") ∧
      Split (escName (str "a") 1 (str "b")) = some [0] ∧
      Split (escName (str "a") 2 (str "b")) = some [0, 4] :=
  ⟨by decide, by decide,
    ((escape_parity_rule 1 (str "a") (str "b") (by decide) (by decide)).2.1 (by decide)).1,
    ((escape_parity_rule 2 (str "a") (str "b") (by decide) (by decide)).1 (by decide)).1⟩

/-! ## The offset list of a fully-qualified name -/

theorem Fqdn_of_getLast (s : Str) (h : s.getLast? = some dot) : Fqdn s = s := by
  unfold Fqdn; rw [if_pos h]

theorem Str_getLast_eq (s : Str) : s.getLast? = s[s.length - 1]? := by
  rw [List.getLast?_eq_getElem?]

/-- C11: for every non-root name `s` that is fully qualified (its last byte is an
unescaped dot and the byte before it, if any, is not an unescaped dot),
`Split(s)` is non-empty, starts with `0`, is strictly increasing, and its last
element is strictly less than `len(s) - 1`. -/
theorem Split_offsets_invariant (s : Str) (hroot : s ≠ str ".")
    (hlast : 1 ≤ s.length ∧ UnescapedDot s (s.length - 1))
    (hprev : 2 ≤ s.length → ¬ UnescapedDot s (s.length - 2)) :
    ∃ idx, Split s = some idx ∧ idx ≠ [] ∧ idx.head? = some 0 ∧
      idx.Pairwise (· < ·) ∧
      ∀ last, idx.getLast? = some last → last + 1 < s.length := by
  have hd : str "." = [dot] := by decide
  rw [hd] at hroot
  have hgl : s.getLast? = some dot := by
    rw [Str_getLast_eq]; exact hlast.2.1
  have hfq : Fqdn s = s := Fqdn_of_getLast s hgl
  have hlen2 : 2 ≤ s.length := by
    rcases hs : s with _ | ⟨a, _ | ⟨b, r⟩⟩
    · rw [hs] at hlast; simp at hlast
    · rw [hs] at hgl hroot
      simp at hgl
      subst hgl
      exact absurd rfl hroot
    · simp
  obtain ⟨rest, hr, hp, hmem⟩ := Split_spec s hroot
  rw [hfq] at hmem
  have hlt : ∀ p ∈ rest, p + 1 < s.length := by
    intro p hpm
    obtain ⟨h1, h2, h3⟩ := (hmem p).1 hpm
    by_contra hc
    have hpe : p - 1 = s.length - 2 := by omega
    rw [hpe] at h3
    exact hprev hlen2 h3
  refine ⟨0 :: rest, hr, by simp, rfl, ?_, ?_⟩
  · rw [List.pairwise_cons]
    exact ⟨fun a ha => by have := ((hmem a).1 ha).1; omega, hp⟩
  · intro last hl
    have hm : last ∈ 0 :: rest := List.mem_of_getLast?_eq_some hl
    rcases List.mem_cons.1 hm with h0 | h1
    · omega
    · exact hlt last h1

/-- Witness of C11 at the name `"www.miek.nl."`. -/
theorem Split_offsets_invariant_witness :
    ∃ idx, Split (str "www.miek.nl.") = some idx ∧ idx ≠ [] ∧ idx.head? = some 0 ∧
      idx.Pairwise (· < ·) ∧
      ∀ last, idx.getLast? = some last → last + 1 < (str "www.miek.nl.").length :=
  Split_offsets_invariant (str "www.miek.nl.") (by decide) (by decide) (by decide)

/-! ## Absence of run-time failures -/

theorem NextLabel_checkedLoop_eq (s : Str) :
    ∀ (n i : Nat) (q : Bool),
      NextLabel.checkedLoop s n (i : Int) q
        = some (((NextLabel.loop s n i q).1 : Int), (NextLabel.loop s n i q).2) := by
  intro n
  induction n with
  | zero => intro i q; simp [NextLabel.checkedLoop, NextLabel.loop]
  | succ n ih =>
    intro i q
    have ih1 := fun q1 => ih (i + 1) q1
    simp only [Nat.cast_add, Nat.cast_one] at ih1
    by_cases h : i + 1 < s.length
    · have hi : i < s.length := by omega
      have hc : (i : Int) < (s.length : Int) - 1 := by omega
      have hidx : index s (i : Int) = some (s.get ⟨i, hi⟩) := by
        rw [index_natCast s _ i rfl, List.getElem?_eq_getElem hi]; rfl
      simp only [NextLabel.checkedLoop, NextLabel.loop, if_pos hc, dif_pos h, hidx]
      by_cases hb : s.get ⟨i, hi⟩ = backslash
      · simp only [if_pos hb]; exact ih1 _
      · simp only [if_neg hb]
        by_cases hd : s.get ⟨i, hi⟩ = dot
        · simp only [if_pos hd]
          cases q with
          | true => simp only [if_true]; exact ih1 _
          | false => simp
        · simp only [if_neg hd]; exact ih1 _
    · have hc : ¬ (i : Int) < (s.length : Int) - 1 := by omega
      simp [NextLabel.checkedLoop, NextLabel.loop, if_neg hc, dif_neg h]

theorem NextLabelChecked_eq (s : Str) (offset : Int) (ho : 0 ≤ offset) :
    NextLabelChecked s offset
      = some (((NextLabel s offset.toNat).1 : Int), (NextLabel s offset.toNat).2) := by
  obtain ⟨k, rfl⟩ := Int.eq_ofNat_of_zero_le ho
  have hfuel : ((s.length : Int) - 1 - (k : Int)).toNat = s.length - 1 - k := by omega
  simp only [NextLabelChecked, NextLabel, hfuel, Int.toNat_ofNat]
  exact NextLabel_checkedLoop_eq s _ k false

theorem Fqdn_length_le (s : Str) : (Fqdn s).length ≤ s.length + 1 := by
  unfold Fqdn
  split
  · omega
  · simp

theorem Split_head (s : Str) (idx : List Nat) (h : Split s = some idx) (hne : idx ≠ []) :
    ∃ rest, idx = 0 :: rest := by
  by_cases hs : s = [dot]
  · subst hs
    have h1 : Split [dot] = some [] := by decide
    rw [h1] at h
    exact absurd (Option.some.inj h).symm hne
  · obtain ⟨rest, hr, _, _⟩ := Split_spec s hs
    rw [hr] at h
    exact ⟨rest, (Option.some.inj h).symm⟩

/-- The offsets of `Split(s)`, computed on `Fqdn(s)`, are strictly increasing and
lie inside the text `s` itself. -/
theorem Split_valid_orig (s : Str) (idx : List Nat) (h : Split s = some idx) :
    ValidOffsets s idx := by
  have hv := Split_valid s idx h
  refine ⟨hv.1, fun p hp => ?_⟩
  by_cases hs : s = [dot]
  · subst hs
    have h1 : Split [dot] = some [] := by decide
    rw [h1] at h
    rw [← Option.some.inj h] at hp
    simp at hp
  · obtain ⟨rest, hr, _, hmem⟩ := Split_spec s hs
    rw [hr] at h
    rw [← Option.some.inj h] at hp
    have hl := Fqdn_length_le s
    rcases List.mem_cons.1 hp with h0 | h1
    · omega
    · have := ((hmem p).1 h1).2.1; omega

theorem SplitLabels_loop_spec (s : Str) (idx : List Nat) (hv : ValidOffsets s idx) :
    ∀ (n j : Nat) (ls : List Str), j + 1 + n = idx.length →
      SplitLabels.loop s idx n (j + 1) (idx.getD j 0) ls
        = some (ls ++ (List.range' j n).map (labelAt s idx)) := by
  intro n
  induction n with
  | zero => intro j ls _; simp [SplitLabels.loop]
  | succ n ih =>
    intro j ls hlen
    have h : j + 1 < idx.length := by omega
    have hj : j < idx.length := by omega
    have hsl := slice_labelAt s idx hv j h
    have hg : idx.getD j 0 = idx[j] := List.getD_eq_getElem idx 0 hj
    have hg1 : idx.getD (j + 1) 0 = idx[j + 1] := List.getD_eq_getElem idx 0 h
    have hget : idx.get ⟨j + 1, h⟩ = idx[j + 1] := rfl
    have := ih (j + 1) (ls ++ [labelAt s idx j]) (by omega)
    rw [hg1] at this
    simp only [SplitLabels.loop, dif_pos h, hget, hg, hsl]
    rw [this]
    simp [List.range'_succ]

/-- What `SplitLabels` returns when `Split` gives two or more offsets: the slices
between consecutive offsets, one fewer than there are offsets. -/
theorem SplitLabels_eq_of_two_le (s : Str) (idx : List Nat) (h : Split s = some idx)
    (hk : 2 ≤ idx.length) :
    SplitLabels s = some ((List.range (idx.length - 1)).map (labelAt s idx)) := by
  have hv := Split_valid_orig s idx h
  obtain ⟨rest, hr⟩ := Split_head s idx h (by intro h0; rw [h0] at hk; simp at hk)
  obtain ⟨k, hk1⟩ : ∃ k, idx.length = k + 2 := ⟨idx.length - 2, by omega⟩
  have h0 : idx.getD 0 0 = 0 := by rw [hr]; rfl
  have := SplitLabels_loop_spec s idx hv (k + 1) 0 [] (by omega)
  rw [h0] at this
  simp only [SplitLabels, h, hk1]
  simp only [Nat.add_sub_cancel, Nat.zero_add, List.nil_append] at this ⊢
  rw [show k + 2 - 1 = k + 1 by omega, this, List.range_eq_range']

theorem SplitLabels_total (s : Str) : ∃ r, SplitLabels s = some r := by
  obtain ⟨idx, h, _⟩ := Split_total s
  rcases Nat.lt_or_ge idx.length 2 with hlt | hge
  · rcases hl : idx.length with _ | _ | k
    · exact ⟨[], by simp only [SplitLabels, h, hl]⟩
    · exact ⟨[s], by simp only [SplitLabels, h, hl]⟩
    · omega
  · exact ⟨_, SplitLabels_eq_of_two_le s idx h hge⟩

/-- C12: on `"www.miek.nl."`, where `Split` gives the three offsets `[0, 4, 9]`
and `LenLabels` gives `3`, the code of `SplitLabels` returns two elements, the
slices `s[0:4]` and `s[4:9]`; the final slice `s[9:]` is not among them. -/
theorem SplitLabels_misses_final_slice :
    Split (str "www.miek.nl.") = some [0, 4, 9] ∧
    LenLabels (str "www.miek.nl.") = some 3 ∧
    (SplitLabels (str "www.miek.nl.")).map List.length = some 2 ∧
    SplitLabels (str "www.miek.nl.")
      = some [((str "www.miek.nl.").take 4).drop 0, ((str "www.miek.nl.").take 9).drop 4] ∧
    (SplitLabels (str "www.miek.nl.")).map (fun r => decide ((str "www.miek.nl.").drop 9 ∈ r))
      = some false := by
  decide

/-- C13: no operation fails.  For every string `s`, the offsets of `Split(s)` are
strictly increasing and at most `len(s)`, and `SplitLabels(s)` returns (every
slice `s[begin:end]` it takes is in range); for all strings `s1`, `s2`,
`CompareLabels(s1, s2)` returns (every index and slice expression is in range);
and for every offset `≥ 0`, `NextLabel` with checked index expressions returns
the result of `NextLabel` (it only reads indices `0 ≤ i < len(s)`). -/
theorem no_operation_fails (s s1 s2 : Str) (offset : Int) (ho : 0 ≤ offset) :
    (∀ idx, Split s = some idx → idx.Pairwise (· < ·) ∧ ∀ p ∈ idx, p ≤ s.length) ∧
    (∃ r, SplitLabels s = some r) ∧
    (∃ n, CompareLabels s1 s2 = some n) ∧
    NextLabelChecked s offset
      = some (((NextLabel s offset.toNat).1 : Int), (NextLabel s offset.toNat).2) :=
  ⟨fun idx h => Split_valid_orig s idx h, SplitLabels_total s, ⟨_, CompareLabels_eq s1 s2⟩,
    NextLabelChecked_eq s offset ho⟩

/-- Witness of C13 at the unqualified name `"www.miek.nl"` and offset `4`. -/
theorem no_operation_fails_witness :
    (∃ r, SplitLabels (str "www.miek.nl") = some r) ∧
      NextLabelChecked (str "www.miek.nl") 4
        = some (((NextLabel (str "www.miek.nl") (4 : Int).toNat).1 : Int),
            (NextLabel (str "www.miek.nl") (4 : Int).toNat).2) :=
  ⟨(no_operation_fails (str "www.miek.nl") (str "a.") (str "b.") 4 (by decide)).2.1,
    (no_operation_fails (str "www.miek.nl") (str "a.") (str "b.") 4 (by decide)).2.2.2⟩

/-! ## Termination of the loops -/

theorem NextLabel_fst_gt (s : Str) (offset : Nat) : offset < (NextLabel s offset).1 := by
  rcases NextLabel_spec s offset with ⟨m, hm, hm1, _⟩ | ⟨he, _⟩
  · rw [hm]; simp only; omega
  · rw [he]; simp only
    have := Nat.le_max_left offset (s.length - 1)
    omega

theorem NextLabel_fst_le (s : Str) (offset : Nat) (h : (NextLabel s offset).2 = false) :
    (NextLabel s offset).1 + 1 ≤ s.length := by
  rcases NextLabel_spec s offset with ⟨m, hm, _, hm2, _⟩ | ⟨he, _⟩
  · rw [hm]; simp only; omega
  · rw [he] at h; simp at h

theorem Split_loop_mono (t : Str) :
    ∀ (fuel off : Nat) (idx r : List Nat), Split.loop t fuel off idx = some r →
      Split.loop t (fuel + 1) off idx = some r := by
  intro fuel
  induction fuel with
  | zero => intro off idx r h; simp [Split.loop] at h
  | succ fuel ih =>
    intro off idx r h
    rcases hnl : NextLabel t off with ⟨o, e⟩
    cases e with
    | true =>
      simp only [Split.loop, hnl] at h ⊢
      exact h
    | false =>
      simp only [Split.loop, hnl] at h
      have := ih o (idx ++ [o]) r h
      rw [Split.loop, hnl]
      exact this

theorem Split_loop_returns (t : Str) :
    ∀ (fuel off : Nat) (idx : List Nat), 1 ≤ fuel → t.length ≤ fuel + off →
      ∃ r, Split.loop t fuel off idx = some r := by
  intro fuel
  induction fuel with
  | zero => intro off idx h; omega
  | succ fuel ih =>
    intro off idx _ hlen
    rcases hnl : NextLabel t off with ⟨o, e⟩
    cases e with
    | true => exact ⟨idx, by simp only [Split.loop, hnl]⟩
    | false =>
      have h1 := NextLabel_fst_gt t off
      have h2 := NextLabel_fst_le t off (by rw [hnl])
      rw [hnl] at h1 h2
      simp only at h1 h2
      obtain ⟨r, hr⟩ := ih o (idx ++ [o]) (by omega) (by omega)
      exact ⟨r, by simp only [Split.loop, hnl]; exact hr⟩

/-- The loop of `Split` returns within `len(Fqdn(s))` calls to `NextLabel`, with
the value of `Split(s)`. -/
theorem Split_loop_tight (s : Str) :
    ∃ idx, Split.loop (Fqdn s) (Fqdn s).length 0 [0] = some idx ∧
      (s ≠ [dot] → Split s = some idx) := by
  obtain ⟨idx, h⟩ := Split_loop_returns (Fqdn s) (Fqdn s).length 0 [0]
    (Fqdn_length_pos s) (Nat.le_refl _)
  refine ⟨idx, h, fun hs => ?_⟩
  simp only [Split, if_neg hs]
  exact Split_loop_mono (Fqdn s) _ 0 [0] idx h

theorem CompareLabels_loop_spec_min (s1 s2 : Str) (l1 l2 : List Nat)
    (hv1 : ValidOffsets s1 l1) (hv2 : ValidOffsets s2 l2) :
    ∀ (fuel a b n : Nat) (i1 j1 i2 j2 : Int), a < l1.length → b < l2.length →
      min a b + 1 ≤ fuel → i1 = (a : Int) - 1 → j1 = (a : Int) → i2 = (b : Int) - 1 →
      j2 = (b : Int) →
      CompareLabels.loop s1 s2 l1 l2 fuel i1 j1 i2 j2 n
        = some (n + commonSuffixLen ((List.range a).map (labelAt s1 l1))
            ((List.range b).map (labelAt s2 l2))) := by
  intro fuel
  induction fuel with
  | zero => intro a b n i1 j1 i2 j2 _ _ h; omega
  | succ fuel ih =>
    intro a b n i1 j1 i2 j2 ha hb hfuel hi1 hj1 hi2 hj2
    cases a with
    | zero =>
      have : i1 < 0 ∨ i2 < 0 := Or.inl (by omega)
      simp only [CompareLabels.loop, if_pos this, List.range_zero, List.map_nil,
        commonSuffixLen_nil_left, Nat.add_zero]
    | succ a =>
      cases b with
      | zero =>
        have : i1 < 0 ∨ i2 < 0 := Or.inr (by omega)
        simp only [CompareLabels.loop, if_pos this, List.range_zero, List.map_nil,
          commonSuffixLen_nil_right, Nat.add_zero]
      | succ b =>
        have hc : ¬ (i1 < 0 ∨ i2 < 0) := by omega
        have ha0 : a < l1.length := by omega
        have hb0 : b < l2.length := by omega
        have e1 : index l1 i1 = some l1[a] := by
          rw [index_natCast l1 i1 a (by omega), List.getElem?_eq_getElem ha0]
        have e2 : index l1 j1 = some l1[a + 1] := by
          rw [index_natCast l1 j1 (a + 1) (by omega), List.getElem?_eq_getElem ha]
        have e3 : index l2 i2 = some l2[b] := by
          rw [index_natCast l2 i2 b (by omega), List.getElem?_eq_getElem hb0]
        have e4 : index l2 j2 = some l2[b + 1] := by
          rw [index_natCast l2 j2 (b + 1) (by omega), List.getElem?_eq_getElem hb]
        have hrec := fun m => ih a b m (i1 - 1) (j1 - 1) (i2 - 1) (j2 - 1) ha0 hb0
          (by omega) (by omega) (by omega) (by omega) (by omega)
        simp only [CompareLabels.loop, if_neg hc, e1, e2, e3, e4,
          slice_labelAt s1 l1 hv1 a ha, slice_labelAt s2 l2 hv2 b hb,
          Option.bind_eq_bind, Option.some_bind, List.range_succ, List.map_append,
          List.map_cons, List.map_nil, commonSuffixLen_concat]
        by_cases heq : labelAt s1 l1 a = labelAt s2 l2 b
        · rw [if_pos heq, if_pos heq, hrec]
          congr 1; omega
        · rw [if_neg heq, if_neg heq]; rfl

/-- The loop of `CompareLabels` returns within `min(len(l1), len(l2))`
iterations, with the value it has under the bound used by `CompareLabels`. -/
theorem CompareLabels_loop_tight (s1 s2 : Str) (l1 l2 : List Nat)
    (h1 : Split (Fqdn s1) = some l1) (h2 : Split (Fqdn s2) = some l2)
    (hn1 : l1 ≠ []) (hn2 : l2 ≠ []) (n : Nat) :
    ∃ r, CompareLabels.loop (Fqdn s1) (Fqdn s2) l1 l2 (min l1.length l2.length)
          ((l1.length : Int) - 2) ((l1.length : Int) - 1)
          ((l2.length : Int) - 2) ((l2.length : Int) - 1) n = some r ∧
      CompareLabels.loop (Fqdn s1) (Fqdn s2) l1 l2 (l1.length + 1)
          ((l1.length : Int) - 2) ((l1.length : Int) - 1)
          ((l2.length : Int) - 2) ((l2.length : Int) - 1) n = some r := by
  have hv1 : ValidOffsets (Fqdn s1) l1 := by
    have := Split_valid (Fqdn s1) l1 h1
    rwa [Fqdn_idem] at this
  have hv2 : ValidOffsets (Fqdn s2) l2 := by
    have := Split_valid (Fqdn s2) l2 h2
    rwa [Fqdn_idem] at this
  have hp1 := List.length_pos.2 hn1
  have hp2 := List.length_pos.2 hn2
  have hmin : min (l1.length - 1) (l2.length - 1) + 1 ≤ min l1.length l2.length := by
    omega
  have ha := CompareLabels_loop_spec_min (Fqdn s1) (Fqdn s2) l1 l2 hv1 hv2
    (min l1.length l2.length) (l1.length - 1) (l2.length - 1) n
    ((l1.length : Int) - 2) ((l1.length : Int) - 1)
    ((l2.length : Int) - 2) ((l2.length : Int) - 1)
    (by omega) (by omega) hmin (by omega) (by omega) (by omega) (by omega)
  have hb := CompareLabels_loop_spec_min (Fqdn s1) (Fqdn s2) l1 l2 hv1 hv2
    (l1.length + 1) (l1.length - 1) (l2.length - 1) n
    ((l1.length : Int) - 2) ((l1.length : Int) - 1)
    ((l2.length : Int) - 2) ((l2.length : Int) - 1)
    (by omega) (by omega) (by omega) (by omega) (by omega) (by omega) (by omega)
  exact ⟨_, ha, hb⟩

theorem wrapInt64_of_range (x : Int) (h1 : -9223372036854775808 ≤ x)
    (h2 : x ≤ 9223372036854775807) : wrapInt64 x = x := by
  unfold wrapInt64; omega

theorem NextLabel_loop64_eq (s : Str) (hlen : (s.length : Int) ≤ maxInt64) :
    ∀ (n i : Nat) (q : Bool), (i : Int) < maxInt64 →
      NextLabel.loop64 s n (i : Int) q
        = some (((NextLabel.loop s n i q).1 : Int), (NextLabel.loop s n i q).2) := by
  unfold maxInt64 at hlen
  intro n
  induction n with
  | zero =>
    intro i q hi
    unfold maxInt64 at hi
    have hw : wrapInt64 ((i : Int) + 1) = ((i + 1 : Nat) : Int) := by
      rw [wrapInt64_of_range _ (by omega) (by omega)]; rfl
    simp only [NextLabel.loop64, NextLabel.loop, hw]
  | succ n ih =>
    intro i q hi
    unfold maxInt64 at hi
    have hw : wrapInt64 ((i : Int) + 1) = ((i + 1 : Nat) : Int) := by
      rw [wrapInt64_of_range _ (by omega) (by omega)]; rfl
    by_cases h : i + 1 < s.length
    · have hi0 : i < s.length := by omega
      have hc : (i : Int) < (s.length : Int) - 1 := by omega
      have hidx : index s (i : Int) = some (s.get ⟨i, hi0⟩) := by
        rw [index_natCast s _ i rfl, List.getElem?_eq_getElem hi0]; rfl
      have ih1 := fun q1 => ih (i + 1) q1 (by unfold maxInt64; omega)
      simp only [NextLabel.loop64, NextLabel.loop, if_pos hc, dif_pos h, hidx, hw]
      by_cases hb : s.get ⟨i, hi0⟩ = backslash
      · simp only [if_pos hb]; exact ih1 _
      · simp only [if_neg hb]
        by_cases hd : s.get ⟨i, hi0⟩ = dot
        · simp only [if_pos hd]
          cases q with
          | true => simp only [if_true]; exact ih1 _
          | false => simp
        · simp only [if_neg hd]; exact ih1 _
    · have hc : ¬ (i : Int) < (s.length : Int) - 1 := by omega
      simp only [NextLabel.loop64, NextLabel.loop, if_neg hc, dif_neg h, hw]

/-- Below the largest `int`, `NextLabel` with Go's `int` arithmetic returns the
result of `NextLabel` on natural numbers: nothing wraps and nothing panics. -/
theorem NextLabel64_eq (s : Str) (offset : Int) (hlen : (s.length : Int) ≤ maxInt64)
    (h0 : 0 ≤ offset) (hmax : offset < maxInt64) :
    NextLabel64 s offset
      = some (((NextLabel s offset.toNat).1 : Int), (NextLabel s offset.toNat).2) := by
  obtain ⟨k, rfl⟩ := Int.eq_ofNat_of_zero_le h0
  have hfuel : ((s.length : Int) - 1 - (k : Int)).toNat = s.length - 1 - k := by omega
  simp only [NextLabel64, NextLabel, hfuel, Int.toNat_ofNat]
  exact NextLabel_loop64_eq s hlen _ k false hmax

/-- C14 fails at the largest offset: with Go's 64-bit `int`, `NextLabel(s, MaxInt64)`
never enters its loop and returns `i + 1` wrapped to `MinInt64`, which is not
greater than the offset; shown on the empty text and on `"a.b."`. -/
theorem NextLabel_index_wraps_at_max_offset :
    (0 ≤ maxInt64 ∧
      NextLabel64 (str "") maxInt64 = some (-9223372036854775808, true) ∧
      ¬ (maxInt64 < -9223372036854775808)) ∧
    (NextLabel64 (str "a.b.") maxInt64 = some (-9223372036854775808, true)) := by
  decide

/-- C14, as the code has it: the loops terminate.  For every text `s` (of at most
`MaxInt64` bytes, as every Go string) and every offset with
`0 ≤ offset < MaxInt64`, `NextLabel(s, offset)`, computed with Go's 64-bit `int`
arithmetic, returns an index strictly greater than `offset`, and when
`end = false` that index is at most `len(s) - 1`; it is the result of `NextLabel`
on natural numbers.  The loops of `Split` and `LenLabels` return within
`len(Fqdn(s))` calls to `NextLabel`, with the values of `Split(s)` and
`LenLabels(s)`; and the loop of `CompareLabels` returns within
`min(len(l1), len(l2))` iterations, `l1` and `l2` being the two offset lists. -/
theorem loops_terminate_int64 (s s1 s2 : Str) (offset : Int) :
    ((s.length : Int) ≤ maxInt64 → 0 ≤ offset → offset < maxInt64 →
      ∃ i e, NextLabel64 s offset = some (i, e) ∧ offset < i ∧
        (e = false → i ≤ (s.length : Int) - 1) ∧
        i = ((NextLabel s offset.toNat).1 : Int) ∧ e = (NextLabel s offset.toNat).2) ∧
    (∃ idx, Split.loop (Fqdn s) (Fqdn s).length 0 [0] = some idx ∧
      (s ≠ str "." → Split s = some idx)) ∧
    (∃ k, LenLabels.loop (Fqdn s) (Fqdn s).length 0 0 = some k ∧
      (s ≠ str "." → LenLabels s = some k)) ∧
    (∀ l1 l2, Split (Fqdn s1) = some l1 → Split (Fqdn s2) = some l2 → l1 ≠ [] → l2 ≠ [] →
      ∀ n, ∃ r,
        CompareLabels.loop (Fqdn s1) (Fqdn s2) l1 l2 (min l1.length l2.length)
          ((l1.length : Int) - 2) ((l1.length : Int) - 1)
          ((l2.length : Int) - 2) ((l2.length : Int) - 1) n = some r ∧
        CompareLabels.loop (Fqdn s1) (Fqdn s2) l1 l2 (l1.length + 1)
          ((l1.length : Int) - 2) ((l1.length : Int) - 1)
          ((l2.length : Int) - 2) ((l2.length : Int) - 1) n = some r) := by
  have hd : str "." = [dot] := by decide
  rw [hd]
  obtain ⟨idx, hidx, hsp⟩ := Split_loop_tight s
  refine ⟨fun hlen h0 hmax => ?_, ⟨idx, hidx, hsp⟩,
    ⟨idx.length, ?_, fun hs => ?_⟩,
    fun l1 l2 h1 h2 hn1 hn2 n => CompareLabels_loop_tight s1 s2 l1 l2 h1 h2 hn1 hn2 n⟩
  · refine ⟨_, _, NextLabel64_eq s offset hlen h0 hmax, ?_, fun he => ?_, rfl, rfl⟩
    · have := NextLabel_fst_gt s offset.toNat
      omega
    · have := NextLabel_fst_le s offset.toNat he
      omega
  · rw [LenLabels_loop_eq (Fqdn s) _ 0 0 [0] rfl, hidx]; rfl
  · rw [LenLabels_eq, hsp hs]; rfl

/-- Witness of C14 at the name `"www.miek.nl."` and offset `4`. -/
theorem loops_terminate_int64_witness :
    ((str "www.miek.nl.").length : Int) ≤ maxInt64 ∧ (0 : Int) ≤ 4 ∧ (4 : Int) < maxInt64 ∧
      ∃ i e, NextLabel64 (str "www.miek.nl.") 4 = some (i, e) ∧ (4 : Int) < i ∧
        (e = false → i ≤ ((str "www.miek.nl.").length : Int) - 1) ∧
        i = ((NextLabel (str "www.miek.nl.") (4 : Int).toNat).1 : Int) ∧
        e = (NextLabel (str "www.miek.nl.") (4 : Int).toNat).2 :=
  ⟨by decide, by decide, by decide,
    (loops_terminate_int64 (str "www.miek.nl.") (str "a.") (str "b.") 4).1
      (by decide) (by decide) (by decide)⟩

/-! ## The end-of-text result of the scanner -/

/-- C15, as the code has it: for every text `s` and every offset with
`0 ≤ offset < len(s)`, if `NextLabel(s, offset)` reports `end = true` then the
returned index equals `len(s)`. -/
theorem NextLabel_end_index (s : Str) (offset : Nat) (ho : offset < s.length)
    (hend : (NextLabel s offset).2 = true) : (NextLabel s offset).1 = s.length := by
  rcases NextLabel_spec s offset with ⟨m, hm, _⟩ | ⟨he, _⟩
  · rw [hm] at hend; simp at hend
  · rw [he]
    simp only
    rw [Nat.max_eq_right (by omega)]
    omega

/-- Witness of C15 at the last label of `"www.miek.nl."`. -/
theorem NextLabel_end_index_witness :
    9 < (str "www.miek.nl.").length ∧ (NextLabel (str "www.miek.nl.") 9).2 = true ∧
      (NextLabel (str "www.miek.nl.") 9).1 = (str "www.miek.nl.").length :=
  ⟨by decide, by decide, NextLabel_end_index (str "www.miek.nl.") 9 (by decide) (by decide)⟩

/-- C15 fails at `offset = len(s)`: on the empty text at offset `0`, and on `"a"`
at offset `1`, `NextLabel` reports `end = true` with the index `len(s) + 1`. -/
theorem NextLabel_end_index_at_length :
    (0 ≤ (str "").length ∧ NextLabel (str "") 0 = (1, true) ∧
      (NextLabel (str "") 0).1 ≠ (str "").length) ∧
    (1 ≤ (str "a").length ∧ NextLabel (str "a") 1 = (2, true) ∧
      (NextLabel (str "a") 1).1 ≠ (str "a").length) := by
  decide

/-! ## Bounds and normalization -/

theorem Split_Fqdn_of_ne_nil (n : Str) (h : n ≠ []) : Split (Fqdn n) = Split n := by
  by_cases h1 : n = [dot]
  · subst h1; rw [Fqdn_dot]
  · exact Split_Fqdn n h1 h

theorem labels_length_le (a : Str) :
    ∃ la, LenLabels a = some la ∧ (labels a).length ≤ la := by
  obtain ⟨idx, hidx, _⟩ := Split_total a
  refine ⟨idx.length, by rw [LenLabels_eq, hidx]; rfl, ?_⟩
  by_cases ha : a = []
  · subst ha
    have : labels [] = [] := by decide
    rw [this]; exact Nat.zero_le _
  · have : labels a = (List.range idx.length).map (labelAt (Fqdn a) idx) := by
      simp only [labels, Split_Fqdn_of_ne_nil a ha, hidx]
    rw [this]; simp

/-- C16: for all strings `a` and `b`, `CompareLabels(a, b)`, `LenLabels(a)` and
`LenLabels(b)` return counts with
`0 ≤ CompareLabels(a, b) ≤ min(LenLabels(a), LenLabels(b))`. -/
theorem CompareLabels_le_LenLabels (a b : Str) :
    ∃ n la lb, CompareLabels a b = some n ∧ LenLabels a = some la ∧
      LenLabels b = some lb ∧ 0 ≤ n ∧ n ≤ min la lb := by
  obtain ⟨la, hla, hla1⟩ := labels_length_le a
  obtain ⟨lb, hlb, hlb1⟩ := labels_length_le b
  obtain ⟨c, hc1, hc2, hc3, _⟩ := commonSuffixLen_spec (labels a) (labels b)
  refine ⟨_, la, lb, CompareLabels_eq a b, hla, hlb, Nat.zero_le _, ?_⟩
  have h1 := hc1.length_le
  have h2 := hc2.length_le
  rw [← hc3]
  exact Nat.le_min.2 ⟨by omega, by omega⟩

/-- C17: with `Fqdn` as modelled, for every non-empty string `s`,
`Split(s) = Split(Fqdn(s))` and `LenLabels(s) = LenLabels(Fqdn(s))`, and both
return; for all strings `s1`, `s2`,
`CompareLabels(s1, s2) = CompareLabels(Fqdn(s1), Fqdn(s2))`, and both return. -/
theorem normalization_invariance (s s1 s2 : Str) (hs : s ≠ str "") :
    (Split s = Split (Fqdn s) ∧ ∃ idx, Split s = some idx) ∧
    (LenLabels s = LenLabels (Fqdn s) ∧ ∃ k, LenLabels s = some k) ∧
    (CompareLabels s1 s2 = CompareLabels (Fqdn s1) (Fqdn s2) ∧
      ∃ n, CompareLabels s1 s2 = some n) := by
  have he : str "" = [] := by decide
  rw [he] at hs
  have h1 := Split_Fqdn_of_ne_nil s hs
  obtain ⟨idx, hidx, _⟩ := Split_total s
  refine ⟨⟨h1.symm, idx, hidx⟩, ⟨?_, idx.length, ?_⟩, ?_, _, CompareLabels_eq s1 s2⟩
  · rw [LenLabels_eq, LenLabels_eq, h1]
  · rw [LenLabels_eq, hidx]; rfl
  · simp only [CompareLabels, Fqdn_idem]

/-- Witness of C17 at the name `"www.miek.nl"` (no trailing dot), `"a.b"` and
`"b."`. -/
theorem normalization_invariance_witness :
    Split (str "www.miek.nl") = Split (Fqdn (str "www.miek.nl")) ∧
      CompareLabels (str "a.b") (str "b.")
        = CompareLabels (Fqdn (str "a.b")) (Fqdn (str "b.")) :=
  ⟨(normalization_invariance (str "www.miek.nl") (str "a.b") (str "b.") (by decide)).1.1,
    (normalization_invariance (str "www.miek.nl") (str "a.b") (str "b.")
      (by decide)).2.2.1⟩

/-- C18: the empty string is one label for `Split`, `LenLabels` and `SplitLabels`
and the root for `CompareLabels`: `Fqdn("") = "."`, `Split("") = [0]`,
`LenLabels("") = 1`, `SplitLabels("") = [""]`, and
`CompareLabels("", x) = CompareLabels(x, "") = 0` for every string `x`. -/
theorem empty_text_edge_case (x : Str) :
    Fqdn (str "") = str "." ∧ Split (str "") = some [0] ∧ LenLabels (str "") = some 1 ∧
      SplitLabels (str "") = some [str ""] ∧
      CompareLabels (str "") x = some 0 ∧ CompareLabels x (str "") = some 0 := by
  have he : str "" = [] := by decide
  have hf : Fqdn [] = [dot] := by decide
  have h1 : Split [dot] = some [] := by decide
  obtain ⟨idx, h2, _⟩ := Split_total (Fqdn x)
  refine ⟨by decide, by decide, by decide, by decide, ?_, ?_⟩
  · rw [he]; simp [CompareLabels, hf, h1, h2]
  · rw [he]; simp [CompareLabels, hf, h1, h2]

end Dns
